import Mathlib

/-!
Verification development for the bipartite evidence-graph engine of the
DART-ID repository (the fido protein-identification core,
`src/tools/fido/src/cpp/BasicBigraph.cpp`).

The C++ source is shallowly embedded: every parallel array of a graph side
becomes a Lean `List`, the ordered integer sets of the `Set` class become
`Finset ℕ` (iterated through `Finset.sort`), IEEE doubles become `ℚ` (the
engine only compares, takes maxima and forms the product `1-(1-a)(1-b)`,
all of which are exact), and the C++ exceptions of `read` become an
`Except` value.  Headers that are not part of the repository snapshot
(`Set.h`, `StringTable.h`, `Array.h`, the `ProteinIdentifier` constructor)
are modelled from the specification, as flagged by their doc comments.
-/

namespace DartFido

/-- Ascending iteration order of a finite set of indices (`Set` iteration,
§4.1).  Implemented as an insertion sort lifted to the multiset quotient so
that concrete runs reduce inside the kernel; `ascList_eq_sort` identifies
it with `Finset.sort`. -/
def ascList {α : Type} [LinearOrder α] (s : Finset α) : List α :=
  Quot.lift (fun l : List α => l.insertionSort (· ≤ ·))
    (fun l₁ l₂ (h : l₁.Perm l₂) =>
      List.eq_of_perm_of_sorted
        ((l₁.perm_insertionSort (· ≤ ·)).trans
          (h.trans (l₂.perm_insertionSort (· ≤ ·)).symm))
        (l₁.sorted_insertionSort (· ≤ ·)) (l₂.sorted_insertionSort (· ≤ ·)))
    s.val

/-- Modelled from the spec: `Set.h` is not under `src/`; §4.1 describes an
ascending-ordered set of non-negative integers with `union`, `without`
(difference), singleton construction, `find` (position in ascending order,
or absent) and `reindexToFind`.  We embed it as `Finset ℕ`; ascending
iteration is `Finset.sort (· ≤ ·)`.  `setFind` is `Set::find`: the rank of
`i` inside `u` in ascending order, `-1` when absent. -/
def setFind (u : Finset ℕ) (i : ℕ) : ℤ :=
  if i ∈ u then ((ascList u).indexOf i : ℤ) else -1

/-- Modelled from the spec: `Set::reindexToFind` (§4.1) maps each member of
`s` to its rank within `u`, discarding members not present in `u`. -/
def setReindexToFind (s u : Finset ℕ) : Finset ℕ :=
  (s ∩ u).image fun i => (ascList u).indexOf i

/-- Modelled from the spec: `StringTable.h` is not under `src/`; §4.2 gives
`lookup(name) → index | not-found(-1)`, `add(name)` assigning the next
index, and `getItemsByNumber()` returning the names in index order.  We
embed the table as the list of its names in index order. -/
def stLookup (st : List String) (s : String) : ℤ :=
  if s ∈ st then (st.indexOf s : ℤ) else -1

/-- One side of the bipartite graph: the parallel arrays of the C++
`GraphLayer` (declared in the missing `BasicBigraph.h`, §2 "GraphSide"):
name, neighbour set, weight, connected-component id (`section`, -1 =
unassigned), the set of component ids seen during traversal
(`sectionMarks`) and the charge state. -/
structure GraphLayer where
  names : List String
  associations : List (Finset ℕ)
  weights : List ℚ
  sections : List ℤ
  sectionMarks : List (Finset ℤ)
  chargeStates : List ℤ
deriving DecidableEq

/-- Layer size; the C++ code indexes all parallel arrays up to `size()`,
which coincide at every call site. -/
def GraphLayer.size (gl : GraphLayer) : ℕ := gl.associations.length

def GraphLayer.assoc (gl : GraphLayer) (k : ℕ) : Finset ℕ :=
  gl.associations.getD k ∅

def GraphLayer.weight (gl : GraphLayer) (k : ℕ) : ℚ :=
  gl.weights.getD k 0

def GraphLayer.sectionOf (gl : GraphLayer) (k : ℕ) : ℤ :=
  gl.sections.getD k (-1)

def GraphLayer.markOf (gl : GraphLayer) (k : ℕ) : Finset ℤ :=
  gl.sectionMarks.getD k ∅

/-- The `BasicBigraph` object: two graph sides plus the scalar fields of
`ProteinIdentifier` / `BasicBigraph` (thresholds, the severed-protein list,
the clone counter, and the static charge-state prior table). -/
structure BasicBigraph where
  PSMsToProteins : GraphLayer
  proteinsToPSMs : GraphLayer
  ProteinThreshold : ℚ
  PeptideThreshold : ℚ
  severedProteins : List String
  numberClones : ℤ
  priors : List (ℤ × ℚ)
deriving DecidableEq

/-- Modelled from the spec: the `ProteinIdentifier` constructor is not under
`src/` (only its declaration in `ProteinIdentifier.h`), so the value it
assigns to `ProteinThreshold` is unknown; we name it.  No theorem below
depends on the actual value. -/
def defaultProteinThreshold : ℚ := 0

/-- Modelled from the spec: default-constructed `PeptideThreshold`; see
`defaultProteinThreshold`. -/
def defaultPeptideThreshold : ℚ := 0

/-- A default-constructed `BasicBigraph` (empty sides). -/
def emptyBigraph : BasicBigraph where
  PSMsToProteins := ⟨[], [], [], [], [], []⟩
  proteinsToPSMs := ⟨[], [], [], [], [], []⟩
  ProteinThreshold := defaultProteinThreshold
  PeptideThreshold := defaultPeptideThreshold
  severedProteins := []
  numberClones := 0
  priors := []

/-- Pointwise update of every position of a list, used to render C++ loops
that assign through `Set`-indexed references: position `i` receives
`f i (old value)`. -/
def listUpdate (l : List α) (d : α) (f : ℕ → α → α) : List α :=
  (List.range l.length).map fun i => f i (l.getD i d)

/-- Embedding of `BasicBigraph::add` (BasicBigraph.cpp:568): if the name is unknown to
the table, append it and append a fresh node (empty neighbour set, weight
`-1.0`, section `-1`, charge `-1`) to the layer.  `names` is only filled in
from the table at the end of `read`. -/
def addNode (gl : GraphLayer) (st : List String) (item : String) :
    GraphLayer × List String :=
  if stLookup st item = -1 then
    ({ gl with
        associations := gl.associations ++ [∅]
        weights := gl.weights ++ [-1]
        sections := gl.sections ++ [-1]
        chargeStates := gl.chargeStates ++ [-1] },
      st ++ [item])
  else (gl, st)

/-- Embedding of `BasicBigraph::connect` (BasicBigraph.cpp:581): insert the edge between
the peptide and the protein on both sides.  The C++ function receives the
two names and resolves them through the string tables; `read` below passes
the resolved indices. -/
def connect (g : BasicBigraph) (pepIndex protIndex : ℕ) : BasicBigraph :=
  { g with
    PSMsToProteins := { g.PSMsToProteins with
      associations := g.PSMsToProteins.associations.set pepIndex
        (g.PSMsToProteins.assoc pepIndex ∪ {protIndex}) }
    proteinsToPSMs := { g.proteinsToPSMs with
      associations := g.proteinsToPSMs.associations.set protIndex
        (g.proteinsToPSMs.assoc protIndex ∪ {pepIndex}) } }

/-- Embedding of `BasicBigraph::disconnectPSM` (BasicBigraph.cpp:543): for every protein
in PSM `k`'s neighbour set remove `k` from that protein's set (the loop
over `as`, rendered pointwise: protein `r` is touched exactly when
`r ∈ as`), then clear `k`'s own set. -/
def disconnectPSM (g : BasicBigraph) (k : ℕ) : BasicBigraph :=
  let as := g.PSMsToProteins.assoc k
  { g with
    proteinsToPSMs := { g.proteinsToPSMs with
      associations := listUpdate g.proteinsToPSMs.associations ∅
        fun r a => if r ∈ as then a \ {k} else a }
    PSMsToProteins := { g.PSMsToProteins with
      associations := g.PSMsToProteins.associations.set k ∅ } }

/-- Embedding of `BasicBigraph::disconnectProtein` (BasicBigraph.cpp:554): mirror image
of `disconnectPSM`. -/
def disconnectProtein (g : BasicBigraph) (k : ℕ) : BasicBigraph :=
  let as := g.proteinsToPSMs.assoc k
  { g with
    PSMsToProteins := { g.PSMsToProteins with
      associations := listUpdate g.PSMsToProteins.associations ∅
        fun r a => if r ∈ as then a \ {k} else a }
    proteinsToPSMs := { g.proteinsToPSMs with
      associations := g.proteinsToPSMs.associations.set k ∅ } }

/-- Embedding of `BasicBigraph::removePoorPSMs` (BasicBigraph.cpp:492): disconnect every
PSM whose weight is negative. -/
def removePoorPSMs (g : BasicBigraph) : BasicBigraph :=
  (List.range g.PSMsToProteins.size).foldl
    (fun h k => if h.PSMsToProteins.weight k < 0 then disconnectPSM h k else h) g

/-- Embedding of `BasicBigraph::removePoorProteins` (BasicBigraph.cpp:528): disconnect
every protein whose best supporting peptide weight is below
`ProteinThreshold`.  `Vector::max` over an empty neighbour set is modelled
as disconnecting (which is then a no-op on an already empty set, so the
branch taken for empty sets is immaterial). -/
def removePoorProteins (g : BasicBigraph) : BasicBigraph :=
  (List.range g.proteinsToPSMs.size).foldl
    (fun h k =>
      match ((ascList (h.proteinsToPSMs.assoc k)).map h.PSMsToProteins.weight).max? with
      | some m => if m < h.ProteinThreshold then disconnectProtein h k else h
      | none => disconnectProtein h k) g

/-- Embedding of `BasicBigraph::saveSeveredProteins` (BasicBigraph.cpp:265): record the
names of all proteins with an empty neighbour set. -/
def saveSeveredProteins (g : BasicBigraph) : BasicBigraph :=
  let emptyOnes := (List.range g.proteinsToPSMs.size).filter
    (fun k => g.proteinsToPSMs.assoc k = ∅)
  { g with severedProteins := emptyOnes.map (fun k => g.proteinsToPSMs.names.getD k "") }

/-- Embedding of `BasicBigraph::pseudoCountPSMs` (BasicBigraph.cpp:314): raise every
peptide weight below `PeptideThreshold` to exactly `PeptideThreshold`. -/
def pseudoCountPSMs (g : BasicBigraph) : BasicBigraph :=
  { g with PSMsToProteins := { g.PSMsToProteins with
      weights := g.PSMsToProteins.weights.map
        fun w => if w < g.PeptideThreshold then g.PeptideThreshold else w } }

/-- Embedding of `BasicBigraph::buildSubgraph` (BasicBigraph.cpp:462): restrict the graph
to the selected index sets (array subscripting by a `Set` yields the
entries in ascending order) and re-express every neighbour set in the new
dense index space via `reindexToFind`.  The result is a fresh
default-constructed graph (default thresholds, no severed proteins, clone
counter 0); `sectionMarks` is not among the copied arrays.  The
charge-state prior table is a static member shared by all instances. -/
def buildSubgraph (g : BasicBigraph) (connectedProteins connectedPSMs : Finset ℕ) :
    BasicBigraph :=
  let pepList := ascList connectedPSMs
  let protList := ascList connectedProteins
  { PSMsToProteins :=
      { names := pepList.map fun i => g.PSMsToProteins.names.getD i ""
        associations := pepList.map
          fun i => setReindexToFind (g.PSMsToProteins.assoc i) connectedProteins
        weights := pepList.map g.PSMsToProteins.weight
        sections := pepList.map g.PSMsToProteins.sectionOf
        sectionMarks := []
        chargeStates := pepList.map fun i => g.PSMsToProteins.chargeStates.getD i (-1) }
    proteinsToPSMs :=
      { names := protList.map fun i => g.proteinsToPSMs.names.getD i ""
        associations := protList.map
          fun i => setReindexToFind (g.proteinsToPSMs.assoc i) connectedPSMs
        weights := protList.map g.proteinsToPSMs.weight
        sections := protList.map g.proteinsToPSMs.sectionOf
        sectionMarks := []
        chargeStates := protList.map fun i => g.proteinsToPSMs.chargeStates.getD i (-1) }
    ProteinThreshold := defaultProteinThreshold
    PeptideThreshold := defaultPeptideThreshold
    severedProteins := []
    numberClones := 0
    priors := g.priors }

/-- Embedding of `BasicBigraph::reindex` (BasicBigraph.cpp:431): rebuild the graph
keeping only nodes with at least one neighbour, then restore the backed-up
scalars.  Note the source backs up and restores `numberClones`,
`severedProteins` and `PeptideThreshold` but NOT `ProteinThreshold`, which
is therefore left at the default-constructed value produced by
`buildSubgraph`. -/
def reindex (g : BasicBigraph) : BasicBigraph :=
  let connectedPSMs : Finset ℕ :=
    (Finset.range g.PSMsToProteins.size).filter fun k => g.PSMsToProteins.assoc k ≠ ∅
  let connectedProteins : Finset ℕ :=
    (Finset.range g.proteinsToPSMs.size).filter fun k => g.proteinsToPSMs.assoc k ≠ ∅
  let r := buildSubgraph g connectedProteins connectedPSMs
  { r with
    numberClones := g.numberClones
    severedProteins := g.severedProteins
    PeptideThreshold := g.PeptideThreshold }

/-- Embedding of `BasicBigraph::clonePSM` (BasicBigraph.cpp:356): collect the sections of
the PSM's protein neighbours, bucket those neighbours by section (the loop
writing `associatedProteinsBySection[sections.find(sect)]` partitions `s`
by the protein's section, rendered here as one filter per section in
ascending section order), append one clone of the PSM per bucket — same
name, weight and charge state, neighbour set the bucket, section the
bucket's section, the k-th clone receiving index `size()-1 = N + k` — add
the reverse edges from each bucket's proteins to its clone (pointwise:
protein `r ∈ s` lies in exactly the bucket of its own section), then erase
the original: every protein of every bucket drops `pepIndex`, and the
original's own set becomes empty.  `numberClones` grows by
`sections.size() - 1`.  The three named subexpressions are the local
variables `sections` (as a set), its ascending iteration order, and
`associatedProteinsBySection`. -/
def cloneSections (g : BasicBigraph) (pepIndex : ℕ) : Finset ℤ :=
  (g.PSMsToProteins.assoc pepIndex).image fun k => g.proteinsToPSMs.sectionOf k

/-- Ascending iteration order of `cloneSections`. -/
def cloneSorted (g : BasicBigraph) (pepIndex : ℕ) : List ℤ :=
  ascList (cloneSections g pepIndex)

/-- The `associatedProteinsBySection` buckets of `clonePSM`, one per
section in ascending order. -/
def cloneBuckets (g : BasicBigraph) (pepIndex : ℕ) : List (Finset ℕ) :=
  (cloneSorted g pepIndex).map fun sec =>
    (g.PSMsToProteins.assoc pepIndex).filter
      fun r => g.proteinsToPSMs.sectionOf r = sec

/-- Embedding of `BasicBigraph::clonePSM` (BasicBigraph.cpp:356); see `cloneSections`. -/
def clonePSM (g : BasicBigraph) (pepIndex : ℕ) : BasicBigraph :=
  let s := g.PSMsToProteins.assoc pepIndex
  let sects : Finset ℤ := cloneSections g pepIndex
  let sorted : List ℤ := cloneSorted g pepIndex
  let buckets : List (Finset ℕ) := cloneBuckets g pepIndex
  let N := g.PSMsToProteins.size
  let pep1 : GraphLayer := { g.PSMsToProteins with
    names := g.PSMsToProteins.names ++
      List.replicate buckets.length (g.PSMsToProteins.names.getD pepIndex "")
    associations := g.PSMsToProteins.associations ++ buckets
    weights := g.PSMsToProteins.weights ++
      List.replicate buckets.length (g.PSMsToProteins.weight pepIndex)
    sections := g.PSMsToProteins.sections ++ sorted
    chargeStates := g.PSMsToProteins.chargeStates ++
      List.replicate buckets.length (g.PSMsToProteins.chargeStates.getD pepIndex (-1)) }
  let protA := listUpdate g.proteinsToPSMs.associations ∅
    fun r a =>
      if r ∈ s then a ∪ {N + sorted.indexOf (g.proteinsToPSMs.sectionOf r)} else a
  let protB := listUpdate protA ∅
    fun r a => if r ∈ s then a \ {pepIndex} else a
  { g with
    PSMsToProteins := { pep1 with associations := pep1.associations.set pepIndex ∅ }
    proteinsToPSMs := { g.proteinsToPSMs with associations := protB }
    numberClones := g.numberClones + ((sects.card : ℤ) - 1) }

/-- Embedding of `BasicBigraph::cloneMultipleMarkedPSMs` (BasicBigraph.cpp:336): reset
the clone counter, then clone every PSM of the original index range whose
`sectionMark` set holds more than one id (`N` is computed once, before any
clone is appended). -/
def cloneMultipleMarkedPSMs (g : BasicBigraph) : BasicBigraph :=
  (List.range g.PSMsToProteins.size).foldl
    (fun h k => if 1 < (h.PSMsToProteins.markOf k).card then clonePSM h k else h)
    { g with numberClones := 0 }

/-- Which side of the bigraph a traversal step is on (`&gl ==
&PSMsToProteins` versus `&gl == &proteinsToPSMs` in the C++ source). -/
inductive GSide
  | pep
  | prot
deriving DecidableEq

/-- Crossing to the opposite side of the bigraph. -/
def GSide.flip : GSide → GSide
  | GSide.pep => GSide.prot
  | GSide.prot => GSide.pep

def BasicBigraph.layer (g : BasicBigraph) : GSide → GraphLayer
  | GSide.pep => g.PSMsToProteins
  | GSide.prot => g.proteinsToPSMs

/-- Write the `section` field of one node. -/
def setSection (g : BasicBigraph) (side : GSide) (index : ℕ) (v : ℤ) : BasicBigraph :=
  match side with
  | GSide.pep => { g with PSMsToProteins := { g.PSMsToProteins with
      sections := g.PSMsToProteins.sections.set index v } }
  | GSide.prot => { g with proteinsToPSMs := { g.proteinsToPSMs with
      sections := g.proteinsToPSMs.sections.set index v } }

/-- Insert one id into the `sectionMarks` set of one node. -/
def addSectionMark (g : BasicBigraph) (side : GSide) (index : ℕ) (v : ℤ) : BasicBigraph :=
  match side with
  | GSide.pep => { g with PSMsToProteins := { g.PSMsToProteins with
      sectionMarks := g.PSMsToProteins.sectionMarks.set index
        (g.PSMsToProteins.markOf index ∪ {v}) } }
  | GSide.prot => { g with proteinsToPSMs := { g.proteinsToPSMs with
      sectionMarks := g.proteinsToPSMs.sectionMarks.set index
        (g.proteinsToPSMs.markOf index ∪ {v}) } }

/-- A touch event of the traversal: the moment `traceConnected` passes its
revisit guard on a node and stamps it with the current section id.  The
log of these events instruments the embedding so that §4.6's claims about
"ids whose traversal touched the node" can be stated; it has no C++
counterpart and no influence on the graph. -/
structure TouchEvent where
  side : GSide
  index : ℕ
  sid : ℤ
deriving DecidableEq

/-- Embedding of `BasicBigraph::traceConnected` (BasicBigraph.cpp:605): if the node
already carries the current section id, stop; otherwise overwrite its
`section` with the id, add the id to its `sectionMarks`, stop at peptides
whose weight is at or below `PeptideThreshold`, and otherwise recurse into
every neighbour on the opposite side (neighbour sets are never modified
during marking, so they are read from the incoming graph).  The C++
recursion terminates because every recursive call first converts a node
whose section differs from the current id; the embedding carries fuel,
which the callers size so that it never runs out. -/
def traceConnected : ℕ → BasicBigraph → GSide → ℕ → ℤ →
    BasicBigraph × List TouchEvent
  | 0, g, _, _, _ => (g, [])
  | Nat.succ fuel, g, side, index, sectionNumber =>
    if (g.layer side).sectionOf index = sectionNumber then (g, [])
    else
      let g1 := addSectionMark (setSection g side index sectionNumber) side index sectionNumber
      if side = GSide.pep ∧ (g.layer side).weight index ≤ g.PeptideThreshold then
        (g1, [⟨side, index, sectionNumber⟩])
      else
        (ascList ((g.layer side).assoc index)).foldl
          (fun acc j =>
            let r := traceConnected fuel acc.1 side.flip j sectionNumber
            (r.1, acc.2 ++ r.2))
          (g1, [⟨side, index, sectionNumber⟩])

/-- Embedding of `BasicBigraph::markSectionPartitions` (BasicBigraph.cpp:633): clear and
re-allocate the `sectionMarks` arrays, reset all sections to `-1`, then
start a fresh trace with the next id from every protein still unassigned.
Returns the number of sections, the marked graph, and the instrumentation
log of touch events in chronological order. -/
def markSectionPartitions (g : BasicBigraph) :
    ℕ × BasicBigraph × List TouchEvent :=
  let g0 := { g with
    proteinsToPSMs := { g.proteinsToPSMs with
      sectionMarks := List.replicate g.proteinsToPSMs.size ∅
      sections := List.replicate g.proteinsToPSMs.size (-1) }
    PSMsToProteins := { g.PSMsToProteins with
      sectionMarks := List.replicate g.PSMsToProteins.size ∅
      sections := List.replicate g.PSMsToProteins.size (-1) } }
  let fuel := g.PSMsToProteins.size + g.proteinsToPSMs.size + 1
  (List.range g0.proteinsToPSMs.size).foldl
    (fun acc k =>
      if acc.2.1.proteinsToPSMs.sectionOf k = -1 then
        let r := traceConnected fuel acc.2.1 GSide.prot k (acc.1 : ℤ)
        (acc.1 + 1, r.1, acc.2.2 ++ r.2)
      else acc)
    (0, g0, [])

/-- Embedding of `BasicBigraph::partitionSections` (BasicBigraph.cpp:663): run the
marking, group the node indices of each side by their final `section`
value (the C++ loops `subsets[section].add(k)`, rendered as one filter per
section id), and build one subgraph per section. -/
def partitionSections (g : BasicBigraph) : List BasicBigraph :=
  let m := markSectionPartitions g
  let g1 := m.2.1
  (List.range m.1).map fun (k : ℕ) =>
    let protSubset : Finset ℕ := (Finset.range g1.proteinsToPSMs.size).filter
      fun i => g1.proteinsToPSMs.sectionOf i = (k : ℤ)
    let pepSubset : Finset ℕ := (Finset.range g1.PSMsToProteins.size).filter
      fun i => g1.PSMsToProteins.sectionOf i = (k : ℤ)
    buildSubgraph g1 protSubset pepSubset

/-- Embedding of `BasicBigraph::prune` (BasicBigraph.cpp:281): the fixed pipeline
removePoorPSMs → removePoorProteins → saveSeveredProteins → reindex →
markSectionPartitions → cloneMultipleMarkedPSMs → reindex. -/
def prune (g : BasicBigraph) : BasicBigraph :=
  let g1 := removePoorPSMs g
  let g2 := removePoorProteins g1
  let g3 := saveSeveredProteins g2
  let g4 := reindex g3
  let g5 := (markSectionPartitions g4).2.1
  let g6 := cloneMultipleMarkedPSMs g5
  reindex g6

/-- The character-copying loop of `cleanPeptideSequence`
(BasicBigraph.cpp:23): keep only capital letters, replacing Ile by Leu. -/
def cleanFilter : List Char → List Char
  | [] => []
  | ch :: rest =>
    if 'A' ≤ ch ∧ ch ≤ 'Z' then
      (if ch ≠ 'I' then ch else 'L') :: cleanFilter rest
    else cleanFilter rest

/-- Embedding of `BasicBigraph::cleanPeptideSequence` (BasicBigraph.cpp:13) on the
character list of the argument: if the character at position 1 is a dot,
first take `substr(2, size()-4)`.  Reading position 1 of a one-character
`std::string` yields the terminating null character (modelled by the
`getD` default); for a marked sequence of size 2 or 3 the C++ `size_t`
count `size()-4` wraps around and `substr` clamps it, returning everything
from position 2 on (the `length < 4` branch).  Then the filtering loop
runs. -/
def cleanChars (pepSeq : List Char) : List Char :=
  let t :=
    if pepSeq.getD 1 (Char.ofNat 0) = '.' then
      if pepSeq.length < 4 then pepSeq.drop 2
      else (pepSeq.drop 2).take (pepSeq.length - 4)
    else pepSeq
  cleanFilter t

/-- Embedding of `BasicBigraph::cleanPeptideSequence` on `String`. -/
def cleanPeptideSequence (pepSeq : String) : String :=
  String.mk (cleanChars pepSeq.data)

/-- Safety envelope of `cleanPeptideSequence`: the same computation, but
`none` when an access leaves the bounds the code implicitly assumes —
reading character position 1 requires at least two characters, and the
substring that drops the first two and last two characters requires at
least four when position 1 is a dot. -/
def cleanPeptideSequenceChecked (pepSeq : List Char) : Option (List Char) :=
  if h1 : 1 < pepSeq.length then
    if pepSeq.get ⟨1, h1⟩ = '.' then
      if 4 ≤ pepSeq.length then
        some (cleanFilter ((pepSeq.drop 2).take (pepSeq.length - 4)))
      else none
    else some (cleanFilter pepSeq)
  else none

/-- One directive of the line-oriented input format of `read` (§6),
tokenised: the leading tag character together with the operands the
corresponding branch extracts from the stream.  `unknown` is a line whose
leading token is none of the recognised tags; `rest` is the remainder of
that line. -/
inductive Instr
  | d (charge : ℤ) (prior : ℚ)
  | e (pepName : String)
  | c (charge : ℤ)
  | r (protName : String)
  | p (value : ℚ)
  | comment (rest : String)
  | unknown (tag : Char) (rest : String)
deriving DecidableEq

/-- The tag character `instr` that the state machine read for this
directive. -/
def Instr.tagChar : Instr → Char
  | .d _ _ => 'd'
  | .e _ => 'e'
  | .c _ => 'c'
  | .r _ => 'r'
  | .p _ => 'p'
  | .comment _ => '#'
  | .unknown t _ => t

/-- The full text of the directive's line, as the error path reconstructs
it (`instr` followed by the `getline` remainder).  Numeric operands are
rendered back to text. -/
def Instr.lineText : Instr → String
  | .d charge prior => "d " ++ toString charge ++ " " ++ toString prior
  | .e pepName => "e " ++ pepName
  | .c charge => "c " ++ toString charge
  | .r protName => "r " ++ protName
  | .p value => "p " ++ toString value
  | .comment rest => "#" ++ rest
  | .unknown t rest => String.mk [t] ++ rest

/-- The `FormatException` of `ProteinIdentifier.h:27` together with the
diagnostic lines the parser prints to `cerr` immediately before throwing
it. -/
structure FormatError where
  diagnostics : List String
deriving DecidableEq

/-- The local variables of `BasicBigraph::read` (BasicBigraph.cpp:39): the
graph under construction (`this`), the two string tables, and the state
machine registers, plus a log of the warnings printed to `cerr`. -/
structure ReadState where
  g : BasicBigraph
  PSMNames : List String
  proteinNames : List String
  pepName : String
  value : ℚ
  pepIndex : ℤ
  chargeState : ℤ
  state : Char
  log : List String
deriving DecidableEq

/-- The final `else` branch of the `read` state machine
(BasicBigraph.cpp:159): consume the rest of the offending line and throw a
`FormatException`; the diagnostics carry the unexpected tag, the state
(printed as the integer value of the state character, since `state` is an
`int` in the source) and the full line text. -/
def unexpectedInstr (rs : ReadState) (i : Instr) : Except FormatError ReadState :=
  Except.error ⟨["unexpected instruction " ++ String.mk [i.tagChar] ++
      " in state " ++ toString rs.state.toNat,
    "the input line was: " ++ i.lineText]⟩

/-- Modelled from the spec: the static array
`PeptideProphetPriorAtChargeState` lives behind the missing `Array.h`;
writing at a charge index overwrites any previous entry for that
charge. -/
def setPrior (ps : List (ℤ × ℚ)) (charge : ℤ) (v : ℚ) : List (ℤ × ℚ) :=
  (charge, v) :: ps.filter (fun q => q.1 ≠ charge)

/-- One iteration of the `while (is >> instr)` loop of `BasicBigraph::read`
(BasicBigraph.cpp:54), for one tokenised directive.  `doClean` is the
global `gbDoPeptideNameClearing`, `useAll` the global
`gbUseAllPepMatches`. -/
def readStep (doClean useAll : Bool) (rs : ReadState) : Instr →
    Except FormatError ReadState
  | .d charge prior =>
    -- accepted in any state; the prior is floored at 1e-6
    Except.ok { rs with g := { rs.g with
      priors := setPrior rs.g.priors charge (max prior (1 / 1000000)) } }
  | .e rawName =>
    if rs.state = 'e' ∨ rs.state = 'p' then
      let afterPending : Except FormatError ReadState :=
        if rs.state = 'p' then
          -- the previous peptide never received its score
          let warn := "Warning: no peptide score for peptide entry " ++
            rs.pepName ++ ", using last score (" ++ toString rs.value ++ ")"
          if rs.value = -10 then
            Except.error ⟨[warn, "Error: No previous peptide entry to use"]⟩
          else
            -- the source sets value = -1 and then takes the max with the
            -- stored weight
            let v1 : ℚ := -1
            Except.ok { rs with
              value := v1
              g := { rs.g with PSMsToProteins := { rs.g.PSMsToProteins with
                weights := rs.g.PSMsToProteins.weights.set rs.pepIndex.toNat
                  (max v1 (rs.g.PSMsToProteins.weight rs.pepIndex.toNat)) } }
              log := rs.log ++ [warn] }
        else Except.ok rs
      afterPending.bind fun rs1 =>
        let nm := if doClean then cleanPeptideSequence rawName else rawName
        let added := addNode rs1.g.PSMsToProteins rs1.PSMNames nm
        Except.ok { rs1 with
          g := { rs1.g with PSMsToProteins := added.1 }
          PSMNames := added.2
          pepName := nm
          pepIndex := stLookup added.2 nm
          state := 'c' }
    else unexpectedInstr rs (.e rawName)
  | .c charge =>
    if rs.state = 'c' then
      Except.ok { rs with
        g := { rs.g with PSMsToProteins := { rs.g.PSMsToProteins with
          chargeStates := rs.g.PSMsToProteins.chargeStates.set rs.pepIndex.toNat charge } }
        chargeState := charge
        state := 'r' }
    else unexpectedInstr rs (.c charge)
  | .r protName =>
    if rs.state = 'c' ∨ rs.state = 'r' ∨ rs.state = 'p' then
      let added := addNode rs.g.proteinsToPSMs rs.proteinNames protName
      let g1 := { rs.g with proteinsToPSMs := added.1 }
      -- connect resolves both names through the tables
      let pepIdx := stLookup rs.PSMNames rs.pepName
      let protIdx := stLookup added.2 protName
      Except.ok { rs with
        g := connect g1 pepIdx.toNat protIdx.toNat
        proteinNames := added.2
        state := 'p' }
    else unexpectedInstr rs (.r protName)
  | .p value =>
    if rs.state = 'p' then
      let w := rs.g.PSMsToProteins.weight rs.pepIndex.toNat
      let newW : ℚ :=
        if useAll then
          -- score from all matches (noisy-OR combination)
          if w = -1 then value else 1 - (1 - w) * (1 - value)
        else
          -- score from the best match only
          max w value
      Except.ok { rs with
        value := value
        g := { rs.g with PSMsToProteins := { rs.g.PSMsToProteins with
          weights := rs.g.PSMsToProteins.weights.set rs.pepIndex.toNat newW
          chargeStates := rs.g.PSMsToProteins.chargeStates.set rs.pepIndex.toNat rs.chargeState } }
        state := 'e' }
    else unexpectedInstr rs (.p value)
  | .comment _ =>
    -- comment line: the remainder is discarded
    Except.ok rs
  | .unknown t rest => unexpectedInstr rs (.unknown t rest)

/-- The `while (is >> instr)` loop over the tokenised input. -/
def readLoop (doClean useAll : Bool) :
    ReadState → List Instr → Except FormatError ReadState
  | rs, [] => Except.ok rs
  | rs, i :: rest =>
    match readStep doClean useAll rs i with
    | Except.ok rs1 => readLoop doClean useAll rs1 rest
    | Except.error err => Except.error err

/-- Embedding of `BasicBigraph::read` (BasicBigraph.cpp:39): run the state machine from
a default-constructed graph whose thresholds the caller has set, then
install the accumulated names from the string tables and apply the
pseudo-count floor. -/
def read (doClean useAll : Bool) (protThresh pepThresh : ℚ)
    (input : List Instr) : Except FormatError BasicBigraph :=
  let init : ReadState :=
    { g := { emptyBigraph with
        ProteinThreshold := protThresh, PeptideThreshold := pepThresh }
      PSMNames := []
      proteinNames := []
      pepName := ""
      value := -10
      pepIndex := -1
      chargeState := 0
      state := 'e'
      log := [] }
  (readLoop doClean useAll init input).map fun rs =>
    pseudoCountPSMs { rs.g with
      PSMsToProteins := { rs.g.PSMsToProteins with names := rs.PSMNames }
      proteinsToPSMs := { rs.g.proteinsToPSMs with names := rs.proteinNames } }

/-! ### Basic list lemmas -/

/-- Bipartite symmetry (§3, §8): protein `r` is a neighbour of peptide `p`
iff peptide `p` is a neighbour of protein `r`. -/
def BigraphSymm (g : BasicBigraph) : Prop :=
  ∀ p r, p < g.PSMsToProteins.size → r < g.proteinsToPSMs.size →
    (r ∈ g.PSMsToProteins.assoc p ↔ p ∈ g.proteinsToPSMs.assoc r)

/-- Well-formedness (§3 "Node" invariant): every neighbour set contains
only indices valid on the opposite side. -/
def BigraphWf (g : BasicBigraph) : Prop :=
  (∀ p, p < g.PSMsToProteins.size →
    ∀ r ∈ g.PSMsToProteins.assoc p, r < g.proteinsToPSMs.size) ∧
  (∀ r, r < g.proteinsToPSMs.size →
    ∀ p ∈ g.proteinsToPSMs.assoc r, p < g.PSMsToProteins.size)

/-! ### Preservation of the invariants by the mutating operations -/

/-- The invariant carried through the `read` state machine: the tables are
aligned with the layers, the graph is well-formed and symmetric, and in
the states that have a current peptide its name is in the table. -/
structure ReadInv (rs : ReadState) : Prop where
  lenP : rs.PSMNames.length = rs.g.PSMsToProteins.size
  lenR : rs.proteinNames.length = rs.g.proteinsToPSMs.size
  wf : BigraphWf rs.g
  symm : BigraphSymm rs.g
  pepNameMem : rs.state = 'c' ∨ rs.state = 'r' ∨ rs.state = 'p' →
    rs.pepName ∈ rs.PSMNames

/-- Graphs reachable by construction via `read` and by the mutating
operations: edge insertion, the two disconnect primitives, cloning, and
reindexing (the constructors carry the index-validity side conditions
under which the C++ code runs them). -/
inductive Reachable : BasicBigraph → Prop
  | ofRead (doClean useAll : Bool) (protThresh pepThresh : ℚ)
      (input : List Instr) (g : BasicBigraph) :
      read doClean useAll protThresh pepThresh input = Except.ok g →
      Reachable g
  | ofConnect (g : BasicBigraph) (pepIndex protIndex : ℕ) : Reachable g →
      pepIndex < g.PSMsToProteins.size → protIndex < g.proteinsToPSMs.size →
      Reachable (connect g pepIndex protIndex)
  | ofDisconnectPSM (g : BasicBigraph) (k : ℕ) : Reachable g →
      Reachable (disconnectPSM g k)
  | ofDisconnectProtein (g : BasicBigraph) (k : ℕ) : Reachable g →
      Reachable (disconnectProtein g k)
  | ofClonePSM (g : BasicBigraph) (k : ℕ) : Reachable g →
      k < g.PSMsToProteins.size → Reachable (clonePSM g k)
  | ofReindex (g : BasicBigraph) : Reachable g → Reachable (reindex g)

/-- A concrete graph produced by `read` for the C1 witness. -/
def c1WitnessGraph : BasicBigraph :=
  (read true false 0 0
    [Instr.e "PEPTIDEA", Instr.c 2, Instr.r "PROT1",
      Instr.p (mkRat 9 10)]).toOption.getD emptyBigraph

/-- A graph whose `ProteinThreshold` differs from the default-constructed
value (whatever that value is). -/
def c5Graph : BasicBigraph :=
  { emptyBigraph with ProteinThreshold := defaultProteinThreshold + 1 }

/-- A parser state sitting at a scored peptide, for the C6 witness. -/
def c6State : ReadState :=
  { g := { emptyBigraph with
      PSMsToProteins := ⟨[], [∅], [mkRat 1 2], [-1], [], [-1]⟩ }
    PSMNames := ["PEP"]
    proteinNames := []
    pepName := "PEP"
    value := mkRat 1 2
    pepIndex := 0
    chargeState := 1
    state := 'p'
    log := [] }

/-- A concrete graph produced by `read` with `pepThresh = 3/4` for the C7
witness. -/
def c7Graph : BasicBigraph :=
  (read true false 0 (mkRat 3 4)
    [Instr.e "AA", Instr.r "P", Instr.p (mkRat 1 2)]).toOption.getD emptyBigraph

/-- Whether the `read` state machine has an accepting branch for directive
`i` in state `st` — the disjunction of the guards of the if/else chain
(`d` and `#` are accepted in any state; anything else, including an
unrecognised leading token, falls to the final `else`). -/
def readAccepts (st : Char) : Instr → Bool
  | .d _ _ => true
  | .e _ => decide (st = 'e' ∨ st = 'p')
  | .c _ => decide (st = 'c')
  | .r _ => decide (st = 'c' ∨ st = 'r' ∨ st = 'p')
  | .p _ => decide (st = 'p')
  | .comment _ => true
  | .unknown _ _ => false

/-- The initial parser state of `read` with both thresholds zero, used by
the C9 and C10 witnesses. -/
def initReadState : ReadState :=
  { g := emptyBigraph
    PSMNames := []
    proteinNames := []
    pepName := ""
    value := -10
    pepIndex := -1
    chargeState := 0
    state := 'e'
    log := [] }

/-- A failing input for the pending-score recovery: peptide `BBB` is still
awaiting its score when `e CCC` arrives, and a previous score (1/2)
exists. -/
def c4Input : List Instr :=
  [Instr.e "AAA", Instr.c 1, Instr.r "PA", Instr.p (mkRat 1 2),
    Instr.e "BBB", Instr.c 1, Instr.r "PB",
    Instr.e "CCC", Instr.c 1, Instr.r "PC", Instr.p (mkRat 3 4)]

/-- The ids delivered to node `(side, i)` by the traversal, in
chronological order. -/
def touchesOf (log : List TouchEvent) (side : GSide) (i : ℕ) : List ℤ :=
  (log.filter (fun e => e.side == side && e.index == i)).map TouchEvent.sid

/-- The allocation invariant `markSectionPartitions` establishes before
tracing: the `sections` and `sectionMarks` arrays of both sides have been
(re-)allocated at the layer's size. -/
structure MarkStInv (g : BasicBigraph) : Prop where
  pl : g.PSMsToProteins.sections.length = g.PSMsToProteins.size
  pm : g.PSMsToProteins.sectionMarks.length = g.PSMsToProteins.size
  rl : g.proteinsToPSMs.sections.length = g.proteinsToPSMs.size
  rm : g.proteinsToPSMs.sectionMarks.length = g.proteinsToPSMs.size

/-- The marking invariant: every node's `sectionMarks` set is exactly the
set of ids whose traversal touched it, and its `section` field is the id
of the most recent touch (`-1` when never touched). -/
def MarkOK (g : BasicBigraph) (log : List TouchEvent) : Prop :=
  ∀ side : GSide, ∀ i : ℕ, i < (g.layer side).size →
    (g.layer side).markOf i = (touchesOf log side i).toFinset ∧
    (g.layer side).sectionOf i = ((touchesOf log side i).getLast?).getD (-1)

/-- A peptide `X` at the peptide threshold bridging two proteins that end
up in different sections — the bridging configuration of §4.6/§4.7. -/
def bridgeGraph : BasicBigraph where
  PSMsToProteins := ⟨["X"], [{0, 1}], [0], [-1], [], [2]⟩
  proteinsToPSMs := ⟨["P", "Q"], [{0}, {0}], [-1, -1], [-1, -1], [], [-1, -1]⟩
  ProteinThreshold := 0
  PeptideThreshold := 0
  severedProteins := []
  numberClones := 0
  priors := []

/-- No name occurs in more than one of the returned component graphs,
on either side. -/
def NoSharedNames (comps : List BasicBigraph) : Prop :=
  ∀ i j : ℕ, i ≠ j → ∀ nm : String,
    ¬ (nm ∈ (comps.getD i emptyBigraph).PSMsToProteins.names ∧
        nm ∈ (comps.getD j emptyBigraph).PSMsToProteins.names) ∧
    ¬ (nm ∈ (comps.getD i emptyBigraph).proteinsToPSMs.names ∧
        nm ∈ (comps.getD j emptyBigraph).proteinsToPSMs.names)

/-- Two proteins P, Q each matched by a distinct peptide (A resp. B), with
no bridging peptide: the prune/clone machinery never runs, names are
distinct, so the partition hypothesis of C2 is satisfied. -/
def twoCompGraph : BasicBigraph where
  PSMsToProteins := ⟨["A", "B"], [{0}, {1}], [mkRat 1 2, mkRat 1 2], [-1, -1], [], [2, 2]⟩
  proteinsToPSMs := ⟨["P", "Q"], [{0}, {1}], [-1, -1], [-1, -1], [], [-1, -1]⟩
  ProteinThreshold := 0
  PeptideThreshold := 0
  severedProteins := []
  numberClones := 0
  priors := []

theorem ascList_eq_sort {α : Type} [LinearOrder α] (s : Finset α) :
    ascList s = s.sort (· ≤ ·) := by
  obtain ⟨l, hl⟩ := Quotient.exists_rep s.val
  have h1 : ascList s = l.insertionSort (· ≤ ·) := by
    simp only [ascList, ← hl]
    rfl
  have h2 : (s.sort (· ≤ ·)).Perm l := by
    rw [← Multiset.coe_eq_coe, Finset.sort_eq, ← hl]
    rfl
  rw [h1]
  exact List.eq_of_perm_of_sorted
    ((l.perm_insertionSort (· ≤ ·)).trans h2.symm)
    (l.sorted_insertionSort (· ≤ ·)) (s.sort_sorted (· ≤ ·))

theorem ascList_length {α : Type} [LinearOrder α] (s : Finset α) :
    (ascList s).length = s.card := by
  rw [ascList_eq_sort]
  exact Finset.length_sort _

theorem ascList_nodup {α : Type} [LinearOrder α] (s : Finset α) :
    (ascList s).Nodup := by
  rw [ascList_eq_sort]
  exact s.sort_nodup _

theorem mem_ascList {α : Type} [LinearOrder α] {s : Finset α} {a : α} :
    a ∈ ascList s ↔ a ∈ s := by
  rw [ascList_eq_sort]
  exact Finset.mem_sort _

theorem length_listUpdate (l : List α) (d : α) (f : ℕ → α → α) :
    (listUpdate l d f).length = l.length := by
  simp [listUpdate]

theorem getD_listUpdate (l : List α) (d : α) (f : ℕ → α → α) {i : ℕ}
    (hi : i < l.length) : (listUpdate l d f).getD i d = f i (l.getD i d) := by
  rw [List.getD_eq_getElem _ _ (by simpa [listUpdate] using hi)]
  simp [listUpdate]

theorem getD_listUpdate_default (l : List α) (d : α) (f : ℕ → α → α) {i : ℕ}
    (hi : l.length ≤ i) : (listUpdate l d f).getD i d = d := by
  exact List.getD_eq_default _ _ (by simpa [listUpdate] using hi)

theorem getD_set_self (l : List α) {i : ℕ} (a : α) (hi : i < l.length) (d : α) :
    (l.set i a).getD i d = a := by
  rw [List.getD_eq_getElem _ _ (by simpa using hi)]
  simp

theorem getD_set_ne (l : List α) {i j : ℕ} (h : i ≠ j) (a : α) (d : α) :
    (l.set i a).getD j d = l.getD j d := by
  rcases lt_or_ge j l.length with hj | hj
  · rw [List.getD_eq_getElem _ _ (by simpa using hj),
      List.getD_eq_getElem _ _ hj]
    exact List.getElem_set_ne h _
  · rw [List.getD_eq_default _ _ (by simpa using hj), List.getD_eq_default _ _ hj]

/-! ### Rank bookkeeping for `Finset.sort` and `reindexToFind` -/

theorem sortedIndexOf_lt_card {u : Finset ℕ} {i : ℕ} (h : i ∈ u) :
    (ascList u).indexOf i < u.card := by
  have := List.indexOf_lt_length.mpr (mem_ascList.mpr h)
  simpa [ascList_length] using this

theorem sorted_getElem_indexOf {u : Finset ℕ} {i : ℕ}
    (hlt : (ascList u).indexOf i < (ascList u).length) :
    (ascList u)[(ascList u).indexOf i] = i :=
  List.getElem_indexOf hlt

theorem sorted_indexOf_getElem {u : Finset ℕ} {j : ℕ}
    (hj : j < (ascList u).length) :
    (ascList u).indexOf ((ascList u)[j]) = j :=
  List.indexOf_getElem (ascList_nodup u) j hj

/-- Membership in `reindexToFind` through the rank bijection: for a rank
`j` below the universe's size, `j` is in the reindexed set exactly when the
`j`-th smallest member of the universe is in `s`. -/
theorem mem_setReindexToFind {s u : Finset ℕ} {j : ℕ} (hj : j < u.card) :
    j ∈ setReindexToFind s u ↔
      (ascList u).get ⟨j, by simpa [ascList_length] using hj⟩ ∈ s := by
  have hlen : j < (ascList u).length := by simpa [ascList_length] using hj
  constructor
  · rintro hmem
    rcases Finset.mem_image.mp hmem with ⟨a, ha, rfl⟩
    rcases Finset.mem_inter.mp ha with ⟨haS, haU⟩
    have := sorted_getElem_indexOf
      (List.indexOf_lt_length.mpr (mem_ascList.mpr haU))
    simpa [this] using haS
  · intro hmem
    apply Finset.mem_image.mpr
    refine ⟨(ascList u)[j], Finset.mem_inter.mpr ⟨hmem, ?_⟩,
      sorted_indexOf_getElem hlen⟩
    exact mem_ascList.mp (List.getElem_mem hlen)

theorem setReindexToFind_mem_lt {s u : Finset ℕ} {j : ℕ}
    (h : j ∈ setReindexToFind s u) : j < u.card := by
  rcases Finset.mem_image.mp h with ⟨a, ha, rfl⟩
  exact sortedIndexOf_lt_card (Finset.mem_inter.mp ha).2

/-! ### The two structural invariants -/

theorem getD_set_empty (l : List (Finset ℕ)) (k : ℕ) :
    (l.set k ∅).getD k ∅ = ∅ := by
  rcases lt_or_ge k l.length with h | h
  · exact getD_set_self l ∅ h ∅
  · exact List.getD_eq_default _ _ (by simpa using h)

theorem connect_sizes (g : BasicBigraph) (pI rI : ℕ) :
    (connect g pI rI).PSMsToProteins.size = g.PSMsToProteins.size ∧
    (connect g pI rI).proteinsToPSMs.size = g.proteinsToPSMs.size := by
  constructor <;> simp [connect, GraphLayer.size]

theorem connect_assoc_pep (g : BasicBigraph) {pI : ℕ}
    (h : pI < g.PSMsToProteins.size) (rI p : ℕ) :
    (connect g pI rI).PSMsToProteins.assoc p =
      if p = pI then g.PSMsToProteins.assoc pI ∪ {rI}
      else g.PSMsToProteins.assoc p := by
  by_cases hp : p = pI
  · subst hp
    simp only [connect, GraphLayer.assoc, if_pos rfl]
    exact getD_set_self _ _ h _
  · simp only [connect, GraphLayer.assoc, if_neg hp]
    exact getD_set_ne _ (fun hh => hp hh.symm) _ _

theorem connect_assoc_prot (g : BasicBigraph) {rI : ℕ}
    (h : rI < g.proteinsToPSMs.size) (pI r : ℕ) :
    (connect g pI rI).proteinsToPSMs.assoc r =
      if r = rI then g.proteinsToPSMs.assoc rI ∪ {pI}
      else g.proteinsToPSMs.assoc r := by
  by_cases hr : r = rI
  · subst hr
    simp only [connect, GraphLayer.assoc, if_pos rfl]
    exact getD_set_self _ _ h _
  · simp only [connect, GraphLayer.assoc, if_neg hr]
    exact getD_set_ne _ (fun hh => hr hh.symm) _ _

theorem connect_preserves (g : BasicBigraph) {pI rI : ℕ}
    (hwf : BigraphWf g) (hsymm : BigraphSymm g)
    (hp : pI < g.PSMsToProteins.size) (hr : rI < g.proteinsToPSMs.size) :
    BigraphWf (connect g pI rI) ∧ BigraphSymm (connect g pI rI) := by
  obtain ⟨sp, sr⟩ := connect_sizes g pI rI
  constructor
  · constructor
    · intro p hpsz r hrmem
      rw [sp] at hpsz
      rw [connect_assoc_pep g hp rI p] at hrmem
      rw [sr]
      by_cases hcase : p = pI
      · rw [if_pos hcase] at hrmem
        rcases Finset.mem_union.mp hrmem with hold | hnew
        · exact hwf.1 pI hp r hold
        · simpa using Finset.mem_singleton.mp hnew ▸ hr
      · rw [if_neg hcase] at hrmem
        exact hwf.1 p hpsz r hrmem
    · intro r hrsz p hpmem
      rw [sr] at hrsz
      rw [connect_assoc_prot g hr pI r] at hpmem
      rw [sp]
      by_cases hcase : r = rI
      · rw [if_pos hcase] at hpmem
        rcases Finset.mem_union.mp hpmem with hold | hnew
        · exact hwf.2 rI hr p hold
        · simpa using Finset.mem_singleton.mp hnew ▸ hp
      · rw [if_neg hcase] at hpmem
        exact hwf.2 r hrsz p hpmem
  · intro p r hpsz hrsz
    rw [sp] at hpsz
    rw [sr] at hrsz
    rw [connect_assoc_pep g hp rI p, connect_assoc_prot g hr pI r]
    by_cases hcp : p = pI <;> by_cases hcr : r = rI <;>
      simp [hcp, hcr, hsymm p r hpsz hrsz, hsymm pI r hp hrsz,
        hsymm p rI hpsz hr, hsymm pI rI hp hr]

theorem disconnectPSM_sizes (g : BasicBigraph) (k : ℕ) :
    (disconnectPSM g k).PSMsToProteins.size = g.PSMsToProteins.size ∧
    (disconnectPSM g k).proteinsToPSMs.size = g.proteinsToPSMs.size := by
  constructor <;> simp [disconnectPSM, GraphLayer.size, length_listUpdate]

theorem disconnectPSM_assoc_pep (g : BasicBigraph) (k p : ℕ) :
    (disconnectPSM g k).PSMsToProteins.assoc p =
      if p = k then ∅ else g.PSMsToProteins.assoc p := by
  by_cases hp : p = k
  · subst hp
    simp only [disconnectPSM, GraphLayer.assoc, if_pos rfl]
    exact getD_set_empty _ _
  · simp only [disconnectPSM, GraphLayer.assoc, if_neg hp]
    exact getD_set_ne _ (fun hh => hp hh.symm) _ _

theorem disconnectPSM_assoc_prot (g : BasicBigraph) (k : ℕ) {r : ℕ}
    (hr : r < g.proteinsToPSMs.size) :
    (disconnectPSM g k).proteinsToPSMs.assoc r =
      if r ∈ g.PSMsToProteins.assoc k then g.proteinsToPSMs.assoc r \ {k}
      else g.proteinsToPSMs.assoc r := by
  simp only [disconnectPSM, GraphLayer.assoc]
  exact getD_listUpdate _ _ _ hr

theorem disconnectPSM_preserves (g : BasicBigraph) (k : ℕ)
    (hwf : BigraphWf g) (hsymm : BigraphSymm g) :
    BigraphWf (disconnectPSM g k) ∧ BigraphSymm (disconnectPSM g k) := by
  obtain ⟨sp, sr⟩ := disconnectPSM_sizes g k
  constructor
  · constructor
    · intro p hpsz r hrmem
      rw [sp] at hpsz
      rw [disconnectPSM_assoc_pep g k p] at hrmem
      rw [sr]
      by_cases hcase : p = k
      · simp [hcase] at hrmem
      · rw [if_neg hcase] at hrmem
        exact hwf.1 p hpsz r hrmem
    · intro r hrsz p hpmem
      rw [sr] at hrsz
      rw [disconnectPSM_assoc_prot g k hrsz] at hpmem
      rw [sp]
      by_cases hcase : r ∈ g.PSMsToProteins.assoc k
      · rw [if_pos hcase] at hpmem
        exact hwf.2 r hrsz p (Finset.mem_sdiff.mp hpmem).1
      · rw [if_neg hcase] at hpmem
        exact hwf.2 r hrsz p hpmem
  · intro p r hpsz hrsz
    rw [sp] at hpsz
    rw [sr] at hrsz
    rw [disconnectPSM_assoc_pep g k p, disconnectPSM_assoc_prot g k hrsz]
    by_cases hcp : p = k
    · subst hcp
      by_cases hcr : r ∈ g.PSMsToProteins.assoc p
      · simp [hcr]
      · rw [if_pos rfl, if_neg hcr]
        simp only [Finset.not_mem_empty, false_iff]
        exact fun hmem => hcr ((hsymm p r hpsz hrsz).mpr hmem)
    · by_cases hcr : r ∈ g.PSMsToProteins.assoc k <;>
        simp [hcr, hcp, hsymm p r hpsz hrsz]

theorem disconnectProtein_sizes (g : BasicBigraph) (k : ℕ) :
    (disconnectProtein g k).PSMsToProteins.size = g.PSMsToProteins.size ∧
    (disconnectProtein g k).proteinsToPSMs.size = g.proteinsToPSMs.size := by
  constructor <;> simp [disconnectProtein, GraphLayer.size, length_listUpdate]

theorem disconnectProtein_assoc_prot (g : BasicBigraph) (k r : ℕ) :
    (disconnectProtein g k).proteinsToPSMs.assoc r =
      if r = k then ∅ else g.proteinsToPSMs.assoc r := by
  by_cases hr : r = k
  · subst hr
    simp only [disconnectProtein, GraphLayer.assoc, if_pos rfl]
    exact getD_set_empty _ _
  · simp only [disconnectProtein, GraphLayer.assoc, if_neg hr]
    exact getD_set_ne _ (fun hh => hr hh.symm) _ _

theorem disconnectProtein_assoc_pep (g : BasicBigraph) (k : ℕ) {p : ℕ}
    (hp : p < g.PSMsToProteins.size) :
    (disconnectProtein g k).PSMsToProteins.assoc p =
      if p ∈ g.proteinsToPSMs.assoc k then g.PSMsToProteins.assoc p \ {k}
      else g.PSMsToProteins.assoc p := by
  simp only [disconnectProtein, GraphLayer.assoc]
  exact getD_listUpdate _ _ _ hp

theorem disconnectProtein_preserves (g : BasicBigraph) (k : ℕ)
    (hwf : BigraphWf g) (hsymm : BigraphSymm g) :
    BigraphWf (disconnectProtein g k) ∧ BigraphSymm (disconnectProtein g k) := by
  obtain ⟨sp, sr⟩ := disconnectProtein_sizes g k
  constructor
  · constructor
    · intro p hpsz r hrmem
      rw [sp] at hpsz
      rw [disconnectProtein_assoc_pep g k hpsz] at hrmem
      rw [sr]
      by_cases hcase : p ∈ g.proteinsToPSMs.assoc k
      · rw [if_pos hcase] at hrmem
        exact hwf.1 p hpsz r (Finset.mem_sdiff.mp hrmem).1
      · rw [if_neg hcase] at hrmem
        exact hwf.1 p hpsz r hrmem
    · intro r hrsz p hpmem
      rw [sr] at hrsz
      rw [disconnectProtein_assoc_prot g k r] at hpmem
      rw [sp]
      by_cases hcase : r = k
      · simp [hcase] at hpmem
      · rw [if_neg hcase] at hpmem
        exact hwf.2 r hrsz p hpmem
  · intro p r hpsz hrsz
    rw [sp] at hpsz
    rw [sr] at hrsz
    rw [disconnectProtein_assoc_pep g k hpsz, disconnectProtein_assoc_prot g k r]
    by_cases hcr : r = k
    · subst hcr
      by_cases hcp : p ∈ g.proteinsToPSMs.assoc r <;>
        simp [hcp, hsymm p r hpsz hrsz]
    · by_cases hcp : p ∈ g.proteinsToPSMs.assoc k <;>
        simp [hcp, hcr, hsymm p r hpsz hrsz]

theorem buildSubgraph_sizes (g : BasicBigraph) (protSet pepSet : Finset ℕ) :
    (buildSubgraph g protSet pepSet).PSMsToProteins.size = pepSet.card ∧
    (buildSubgraph g protSet pepSet).proteinsToPSMs.size = protSet.card := by
  constructor <;> simp [buildSubgraph, GraphLayer.size, ascList_length]

theorem buildSubgraph_assoc_pep (g : BasicBigraph) (protSet pepSet : Finset ℕ)
    {p' : ℕ} (hp' : p' < pepSet.card) :
    (buildSubgraph g protSet pepSet).PSMsToProteins.assoc p' =
      setReindexToFind
        (g.PSMsToProteins.assoc
          ((ascList pepSet).get ⟨p', by simpa [ascList_length] using hp'⟩))
        protSet := by
  have hlen : p' < ((ascList pepSet).map
      (fun i => setReindexToFind (g.PSMsToProteins.assoc i) protSet)).length := by
    simpa [ascList_length] using hp'
  show ((ascList pepSet).map
      (fun i => setReindexToFind (g.PSMsToProteins.assoc i) protSet)).getD p' ∅ = _
  rw [List.getD_eq_getElem _ _ hlen]
  simp

theorem buildSubgraph_assoc_prot (g : BasicBigraph) (protSet pepSet : Finset ℕ)
    {r' : ℕ} (hr' : r' < protSet.card) :
    (buildSubgraph g protSet pepSet).proteinsToPSMs.assoc r' =
      setReindexToFind
        (g.proteinsToPSMs.assoc
          ((ascList protSet).get ⟨r', by simpa [ascList_length] using hr'⟩))
        pepSet := by
  have hlen : r' < ((ascList protSet).map
      (fun i => setReindexToFind (g.proteinsToPSMs.assoc i) pepSet)).length := by
    simpa [ascList_length] using hr'
  show ((ascList protSet).map
      (fun i => setReindexToFind (g.proteinsToPSMs.assoc i) pepSet)).getD r' ∅ = _
  rw [List.getD_eq_getElem _ _ hlen]
  simp

theorem buildSubgraph_preserves (g : BasicBigraph) (protSet pepSet : Finset ℕ)
    (hwf : BigraphWf g) (hsymm : BigraphSymm g)
    (hP : ∀ i ∈ protSet, i < g.proteinsToPSMs.size)
    (hE : ∀ i ∈ pepSet, i < g.PSMsToProteins.size) :
    BigraphWf (buildSubgraph g protSet pepSet) ∧
      BigraphSymm (buildSubgraph g protSet pepSet) := by
  obtain ⟨sp, sr⟩ := buildSubgraph_sizes g protSet pepSet
  constructor
  · constructor
    · intro p hpsz r hrmem
      rw [sp] at hpsz
      rw [buildSubgraph_assoc_pep g protSet pepSet hpsz] at hrmem
      rw [sr]
      exact setReindexToFind_mem_lt hrmem
    · intro r hrsz p hpmem
      rw [sr] at hrsz
      rw [buildSubgraph_assoc_prot g protSet pepSet hrsz] at hpmem
      rw [sp]
      exact setReindexToFind_mem_lt hpmem
  · intro p r hpsz hrsz
    rw [sp] at hpsz
    rw [sr] at hrsz
    rw [buildSubgraph_assoc_pep g protSet pepSet hpsz,
      buildSubgraph_assoc_prot g protSet pepSet hrsz]
    rw [mem_setReindexToFind hrsz, mem_setReindexToFind hpsz]
    have hpl : p < (ascList pepSet).length := by
      simpa [ascList_length] using hpsz
    have hrl : r < (ascList protSet).length := by
      simpa [ascList_length] using hrsz
    have hpm : (ascList pepSet)[p] ∈ pepSet :=
      mem_ascList.mp (List.getElem_mem hpl)
    have hrm : (ascList protSet)[r] ∈ protSet :=
      mem_ascList.mp (List.getElem_mem hrl)
    exact hsymm _ _ (hE _ hpm) (hP _ hrm)

theorem reindex_preserves (g : BasicBigraph)
    (hwf : BigraphWf g) (hsymm : BigraphSymm g) :
    BigraphWf (reindex g) ∧ BigraphSymm (reindex g) := by
  have h := buildSubgraph_preserves g
    ((Finset.range g.proteinsToPSMs.size).filter fun k => g.proteinsToPSMs.assoc k ≠ ∅)
    ((Finset.range g.PSMsToProteins.size).filter fun k => g.PSMsToProteins.assoc k ≠ ∅)
    hwf hsymm
    (fun i hi => Finset.mem_range.mp (Finset.mem_filter.mp hi).1)
    (fun i hi => Finset.mem_range.mp (Finset.mem_filter.mp hi).1)
  exact h

theorem cloneBuckets_length (g : BasicBigraph) (pepIndex : ℕ) :
    (cloneBuckets g pepIndex).length = (cloneSorted g pepIndex).length := by
  simp [cloneBuckets]

theorem clonePSM_sizes (g : BasicBigraph) (pepIndex : ℕ) :
    (clonePSM g pepIndex).PSMsToProteins.size =
      g.PSMsToProteins.size + (cloneBuckets g pepIndex).length ∧
    (clonePSM g pepIndex).proteinsToPSMs.size = g.proteinsToPSMs.size := by
  constructor
  · simp [clonePSM, GraphLayer.size]
  · simp [clonePSM, GraphLayer.size, length_listUpdate]

theorem clonePSM_assoc_self (g : BasicBigraph) (pepIndex : ℕ) :
    (clonePSM g pepIndex).PSMsToProteins.assoc pepIndex = ∅ := by
  simp only [clonePSM, GraphLayer.assoc]
  exact getD_set_empty _ _

theorem clonePSM_assoc_orig (g : BasicBigraph) {pepIndex p : ℕ}
    (hne : p ≠ pepIndex) (hp : p < g.PSMsToProteins.size) :
    (clonePSM g pepIndex).PSMsToProteins.assoc p = g.PSMsToProteins.assoc p := by
  simp only [clonePSM, GraphLayer.assoc]
  rw [getD_set_ne _ (fun h => hne h.symm) _ _]
  exact List.getD_append _ _ _ _ hp

theorem clonePSM_assoc_clone (g : BasicBigraph) {pepIndex j : ℕ}
    (hj : j < (cloneBuckets g pepIndex).length)
    (hpi : pepIndex < g.PSMsToProteins.size) :
    (clonePSM g pepIndex).PSMsToProteins.assoc (g.PSMsToProteins.size + j) =
      (cloneBuckets g pepIndex)[j] := by
  have hL : g.PSMsToProteins.associations.length = g.PSMsToProteins.size := rfl
  simp only [clonePSM, GraphLayer.assoc]
  rw [getD_set_ne _ (by omega) _ _]
  rw [List.getD_append_right _ _ _ _ (by omega)]
  have harith : g.PSMsToProteins.size + j - g.PSMsToProteins.associations.length = j := by
    omega
  rw [harith]
  exact List.getD_eq_getElem _ _ hj

theorem clonePSM_assoc_prot (g : BasicBigraph) (pepIndex : ℕ) {r : ℕ}
    (hr : r < g.proteinsToPSMs.size) :
    (clonePSM g pepIndex).proteinsToPSMs.assoc r =
      if r ∈ g.PSMsToProteins.assoc pepIndex then
        (g.proteinsToPSMs.assoc r ∪
          {g.PSMsToProteins.size +
            (cloneSorted g pepIndex).indexOf (g.proteinsToPSMs.sectionOf r)}) \
          {pepIndex}
      else g.proteinsToPSMs.assoc r := by
  simp only [clonePSM, GraphLayer.assoc]
  rw [getD_listUpdate _ _ _ (by rw [length_listUpdate]; exact hr),
    getD_listUpdate _ _ _ hr]
  by_cases hmem : r ∈ g.PSMsToProteins.associations.getD pepIndex ∅
  · simp only [if_pos hmem]
  · simp only [if_neg hmem]

theorem mem_cloneBuckets (g : BasicBigraph) {pepIndex j : ℕ}
    (hj : j < (cloneBuckets g pepIndex).length) (x : ℕ) :
    x ∈ (cloneBuckets g pepIndex)[j] ↔
      x ∈ g.PSMsToProteins.assoc pepIndex ∧
        g.proteinsToPSMs.sectionOf x =
          (cloneSorted g pepIndex).get ⟨j, by simpa [cloneBuckets] using hj⟩ := by
  simp [cloneBuckets, Finset.mem_filter]

theorem cloneSorted_nodup (g : BasicBigraph) (pepIndex : ℕ) :
    (cloneSorted g pepIndex).Nodup :=
  ascList_nodup _

theorem cloneIndexOf_lt (g : BasicBigraph) {pepIndex x : ℕ}
    (hx : x ∈ g.PSMsToProteins.assoc pepIndex) :
    (cloneSorted g pepIndex).indexOf (g.proteinsToPSMs.sectionOf x) <
      (cloneSorted g pepIndex).length :=
  List.indexOf_lt_length.mpr (by
    rw [cloneSorted, mem_ascList]
    exact Finset.mem_image_of_mem _ hx)

theorem cloneIndexOf_eq_iff (g : BasicBigraph) {pepIndex x j : ℕ}
    (hx : x ∈ g.PSMsToProteins.assoc pepIndex)
    (hj : j < (cloneSorted g pepIndex).length) :
    (cloneSorted g pepIndex).indexOf (g.proteinsToPSMs.sectionOf x) = j ↔
      g.proteinsToPSMs.sectionOf x = (cloneSorted g pepIndex)[j] := by
  constructor
  · intro h
    subst h
    exact (List.getElem_indexOf (cloneIndexOf_lt g hx)).symm
  · intro h
    rw [h]
    exact List.indexOf_getElem (cloneSorted_nodup g pepIndex) j hj

theorem clonePSM_preserves (g : BasicBigraph) {pepIndex : ℕ}
    (hwf : BigraphWf g) (hsymm : BigraphSymm g)
    (hpi : pepIndex < g.PSMsToProteins.size) :
    BigraphWf (clonePSM g pepIndex) ∧ BigraphSymm (clonePSM g pepIndex) := by
  obtain ⟨sp, sr⟩ := clonePSM_sizes g pepIndex
  have hbl := cloneBuckets_length g pepIndex
  constructor
  · constructor
    · intro p hpsz x hx
      rw [sp] at hpsz
      rw [sr]
      rcases Nat.lt_or_ge p g.PSMsToProteins.size with hpN | hpN
      · by_cases hpe : p = pepIndex
        · subst hpe
          rw [clonePSM_assoc_self g p] at hx
          exact absurd hx (Finset.not_mem_empty x)
        · rw [clonePSM_assoc_orig g hpe hpN] at hx
          exact hwf.1 p hpN x hx
      · obtain ⟨j, rfl⟩ : ∃ j, p = g.PSMsToProteins.size + j :=
          ⟨p - g.PSMsToProteins.size, by omega⟩
        have hj : j < (cloneBuckets g pepIndex).length := by omega
        rw [clonePSM_assoc_clone g hj hpi] at hx
        exact hwf.1 pepIndex hpi x ((mem_cloneBuckets g hj x).mp hx).1
    · intro r hrsz x hx
      rw [sr] at hrsz
      rw [sp]
      rw [clonePSM_assoc_prot g pepIndex hrsz] at hx
      by_cases hmem : r ∈ g.PSMsToProteins.assoc pepIndex
      · rw [if_pos hmem] at hx
        rcases Finset.mem_union.mp (Finset.mem_sdiff.mp hx).1 with h1 | h1
        · have := hwf.2 r hrsz x h1
          omega
        · have := Finset.mem_singleton.mp h1
          have hidx := cloneIndexOf_lt g hmem
          omega
      · rw [if_neg hmem] at hx
        have := hwf.2 r hrsz x hx
        omega
  · intro p r hpsz hrsz
    rw [sp] at hpsz
    rw [sr] at hrsz
    rw [clonePSM_assoc_prot g pepIndex hrsz]
    rcases Nat.lt_or_ge p g.PSMsToProteins.size with hpN | hpN
    · by_cases hpe : p = pepIndex
      · subst hpe
        rw [clonePSM_assoc_self g p]
        simp only [Finset.not_mem_empty, false_iff]
        by_cases hmem : r ∈ g.PSMsToProteins.assoc p
        · simp [hmem]
        · rw [if_neg hmem]
          exact fun hc => hmem ((hsymm p r hpN hrsz).mpr hc)
      · rw [clonePSM_assoc_orig g hpe hpN]
        by_cases hmem : r ∈ g.PSMsToProteins.assoc pepIndex
        · rw [if_pos hmem]
          rw [hsymm p r hpN hrsz]
          constructor
          · intro hin
            exact Finset.mem_sdiff.mpr
              ⟨Finset.mem_union_left _ hin, by simpa using hpe⟩
          · intro hin
            rcases Finset.mem_union.mp (Finset.mem_sdiff.mp hin).1 with h1 | h1
            · exact h1
            · have := Finset.mem_singleton.mp h1
              omega
        · rw [if_neg hmem]
          exact hsymm p r hpN hrsz
    · obtain ⟨j, rfl⟩ : ∃ j, p = g.PSMsToProteins.size + j :=
        ⟨p - g.PSMsToProteins.size, by omega⟩
      have hj : j < (cloneBuckets g pepIndex).length := by omega
      have hjs : j < (cloneSorted g pepIndex).length := hbl ▸ hj
      rw [clonePSM_assoc_clone g hj hpi, mem_cloneBuckets g hj _]
      by_cases hmem : r ∈ g.PSMsToProteins.assoc pepIndex
      · rw [if_pos hmem]
        constructor
        · rintro ⟨-, hsec⟩
          have hidx : (cloneSorted g pepIndex).indexOf
              (g.proteinsToPSMs.sectionOf r) = j :=
            (cloneIndexOf_eq_iff g hmem hjs).mpr hsec
          refine Finset.mem_sdiff.mpr ⟨Finset.mem_union_right _ ?_, ?_⟩
          · simp [hidx]
          · simp only [Finset.mem_singleton]
            omega
        · intro hin
          obtain ⟨hu, hnp⟩ := Finset.mem_sdiff.mp hin
          rcases Finset.mem_union.mp hu with h1 | h1
          · have := hwf.2 r hrsz _ h1
            omega
          · have heq := Finset.mem_singleton.mp h1
            have hidx : (cloneSorted g pepIndex).indexOf
                (g.proteinsToPSMs.sectionOf r) = j := by omega
            exact ⟨hmem, (cloneIndexOf_eq_iff g hmem hjs).mp hidx⟩
      · rw [if_neg hmem]
        constructor
        · rintro ⟨hin, -⟩
          exact absurd hin hmem
        · intro hin
          have := hwf.2 r hrsz _ hin
          omega

/-! ### Invariant bookkeeping for `read` -/

theorem invariants_congr (g g' : BasicBigraph)
    (hp : g'.PSMsToProteins.associations = g.PSMsToProteins.associations)
    (hr : g'.proteinsToPSMs.associations = g.proteinsToPSMs.associations)
    (hwf : BigraphWf g) (hsymm : BigraphSymm g) :
    BigraphWf g' ∧ BigraphSymm g' := by
  have sp : g'.PSMsToProteins.size = g.PSMsToProteins.size :=
    congrArg List.length hp
  have sr : g'.proteinsToPSMs.size = g.proteinsToPSMs.size :=
    congrArg List.length hr
  have ap : ∀ k, g'.PSMsToProteins.assoc k = g.PSMsToProteins.assoc k := by
    intro k
    show g'.PSMsToProteins.associations.getD k ∅ = _
    rw [hp]
    rfl
  have ar : ∀ k, g'.proteinsToPSMs.assoc k = g.proteinsToPSMs.assoc k := by
    intro k
    show g'.proteinsToPSMs.associations.getD k ∅ = _
    rw [hr]
    rfl
  refine ⟨⟨?_, ?_⟩, ?_⟩
  · intro p hp' x hx
    rw [sp] at hp'
    rw [ap] at hx
    rw [sr]
    exact hwf.1 p hp' x hx
  · intro r hr' x hx
    rw [sr] at hr'
    rw [ar] at hx
    rw [sp]
    exact hwf.2 r hr' x hx
  · intro p r hp' hr'
    rw [sp] at hp'
    rw [sr] at hr'
    rw [ap, ar]
    exact hsymm p r hp' hr'

theorem pep_append_preserves (g : BasicBigraph) (gl' : GraphLayer)
    (hassoc : gl'.associations = g.PSMsToProteins.associations ++ [∅])
    (hwf : BigraphWf g) (hsymm : BigraphSymm g) :
    BigraphWf { g with PSMsToProteins := gl' } ∧
      BigraphSymm { g with PSMsToProteins := gl' } := by
  have sp : ({ g with PSMsToProteins := gl' } : BasicBigraph).PSMsToProteins.size =
      g.PSMsToProteins.size + 1 := by
    show gl'.associations.length = _
    rw [hassoc]
    simp [GraphLayer.size]
  have ha : ∀ p, ({ g with PSMsToProteins := gl' } : BasicBigraph).PSMsToProteins.assoc p =
      if p < g.PSMsToProteins.size then g.PSMsToProteins.assoc p else ∅ := by
    intro p
    show gl'.associations.getD p ∅ = _
    rw [hassoc]
    rcases lt_trichotomy p g.PSMsToProteins.size with h | h | h
    · rw [if_pos h]
      exact List.getD_append _ _ _ _ h
    · rw [if_neg (by omega)]
      rw [List.getD_append_right _ _ _ _ (le_of_eq h.symm)]
      rw [h]
      simp [GraphLayer.size]
    · rw [if_neg (by omega)]
      refine List.getD_eq_default _ _ ?_
      have : g.PSMsToProteins.associations.length = g.PSMsToProteins.size := rfl
      simp only [List.length_append, List.length_singleton]
      omega
  refine ⟨⟨?_, ?_⟩, ?_⟩
  · intro p hp' x hx
    rw [sp] at hp'
    rw [ha] at hx
    by_cases h : p < g.PSMsToProteins.size
    · rw [if_pos h] at hx
      exact hwf.1 p h x hx
    · rw [if_neg h] at hx
      exact absurd hx (Finset.not_mem_empty x)
  · intro r hr' x hx
    rw [sp]
    exact Nat.lt_succ_of_lt (hwf.2 r hr' x hx)
  · intro p r hp' hr'
    rw [sp] at hp'
    rw [ha]
    by_cases h : p < g.PSMsToProteins.size
    · rw [if_pos h]
      exact hsymm p r h hr'
    · rw [if_neg h]
      simp only [Finset.not_mem_empty, false_iff]
      intro hc
      have := hwf.2 r hr' p hc
      omega

theorem prot_append_preserves (g : BasicBigraph) (gl' : GraphLayer)
    (hassoc : gl'.associations = g.proteinsToPSMs.associations ++ [∅])
    (hwf : BigraphWf g) (hsymm : BigraphSymm g) :
    BigraphWf { g with proteinsToPSMs := gl' } ∧
      BigraphSymm { g with proteinsToPSMs := gl' } := by
  have sr : ({ g with proteinsToPSMs := gl' } : BasicBigraph).proteinsToPSMs.size =
      g.proteinsToPSMs.size + 1 := by
    show gl'.associations.length = _
    rw [hassoc]
    simp [GraphLayer.size]
  have ha : ∀ r, ({ g with proteinsToPSMs := gl' } : BasicBigraph).proteinsToPSMs.assoc r =
      if r < g.proteinsToPSMs.size then g.proteinsToPSMs.assoc r else ∅ := by
    intro r
    show gl'.associations.getD r ∅ = _
    rw [hassoc]
    rcases lt_trichotomy r g.proteinsToPSMs.size with h | h | h
    · rw [if_pos h]
      exact List.getD_append _ _ _ _ h
    · rw [if_neg (by omega)]
      rw [List.getD_append_right _ _ _ _ (le_of_eq h.symm)]
      rw [h]
      simp [GraphLayer.size]
    · rw [if_neg (by omega)]
      refine List.getD_eq_default _ _ ?_
      have : g.proteinsToPSMs.associations.length = g.proteinsToPSMs.size := rfl
      simp only [List.length_append, List.length_singleton]
      omega
  refine ⟨⟨?_, ?_⟩, ?_⟩
  · intro p hp' x hx
    rw [sr]
    exact Nat.lt_succ_of_lt (hwf.1 p hp' x hx)
  · intro r hr' x hx
    rw [sr] at hr'
    rw [ha] at hx
    by_cases h : r < g.proteinsToPSMs.size
    · rw [if_pos h] at hx
      exact hwf.2 r h x hx
    · rw [if_neg h] at hx
      exact absurd hx (Finset.not_mem_empty x)
  · intro p r hp' hr'
    rw [sr] at hr'
    rw [ha]
    by_cases h : r < g.proteinsToPSMs.size
    · rw [if_pos h]
      exact hsymm p r hp' h
    · rw [if_neg h]
      simp only [Finset.not_mem_empty, iff_false]
      intro hc
      have := hwf.1 p hp' r hc
      omega

theorem stLookup_mem {st : List String} {s : String} (h : s ∈ st) :
    stLookup st s = (st.indexOf s : ℤ) := by
  simp [stLookup, h]

theorem stLookup_ne_neg_one {st : List String} {s : String}
    (h : stLookup st s ≠ -1) : s ∈ st := by
  by_contra hmem
  exact h (by simp [stLookup, hmem])

theorem stLookup_toNat_lt {st : List String} {s : String} (h : s ∈ st) :
    (stLookup st s).toNat < st.length := by
  rw [stLookup_mem h]
  simpa using List.indexOf_lt_length.mpr h

theorem pending_inv {rs : ReadState} (hinv : ReadInv rs) (w : String) :
    ReadInv { rs with
      value := -1
      g := { rs.g with PSMsToProteins := { rs.g.PSMsToProteins with
        weights := rs.g.PSMsToProteins.weights.set rs.pepIndex.toNat
          (max (-1) (rs.g.PSMsToProteins.weight rs.pepIndex.toNat)) } }
      log := rs.log ++ [w] } := by
  obtain ⟨c1, c2, c3, c4, c5⟩ := hinv
  refine ⟨c1, c2, ?_, ?_, c5⟩
  · exact (invariants_congr rs.g _ rfl rfl c3 c4).1
  · exact (invariants_congr rs.g _ rfl rfl c3 c4).2

theorem e_finish_inv {rs1 : ReadState} (hinv1 : ReadInv rs1) (nm : String) :
    ReadInv { rs1 with
      g := { rs1.g with
        PSMsToProteins := (addNode rs1.g.PSMsToProteins rs1.PSMNames nm).1 }
      PSMNames := (addNode rs1.g.PSMsToProteins rs1.PSMNames nm).2
      pepName := nm
      pepIndex := stLookup (addNode rs1.g.PSMsToProteins rs1.PSMNames nm).2 nm
      state := 'c' } := by
  obtain ⟨c1, c2, c3, c4, _⟩ := hinv1
  by_cases hl : stLookup rs1.PSMNames nm = -1
  · simp only [addNode, if_pos hl]
    refine ⟨?_, c2, ?_, ?_, ?_⟩
    · have := c1
      simp only [GraphLayer.size] at this ⊢
      simp only [List.length_append, List.length_singleton]
      omega
    · exact (pep_append_preserves rs1.g _ rfl c3 c4).1
    · exact (pep_append_preserves rs1.g _ rfl c3 c4).2
    · intro _
      simp
  · simp only [addNode, if_neg hl]
    exact ⟨c1, c2, c3, c4, fun _ => stLookup_ne_neg_one hl⟩

theorem addNode_prot_facts (g : BasicBigraph) (st : List String) (item : String)
    (hlen : st.length = g.proteinsToPSMs.size)
    (hwf : BigraphWf g) (hsymm : BigraphSymm g) :
    (addNode g.proteinsToPSMs st item).2.length =
      ({ g with proteinsToPSMs := (addNode g.proteinsToPSMs st item).1 } :
        BasicBigraph).proteinsToPSMs.size ∧
    item ∈ (addNode g.proteinsToPSMs st item).2 ∧
    BigraphWf { g with proteinsToPSMs := (addNode g.proteinsToPSMs st item).1 } ∧
    BigraphSymm { g with proteinsToPSMs := (addNode g.proteinsToPSMs st item).1 } := by
  by_cases hl : stLookup st item = -1
  · simp only [addNode, if_pos hl]
    refine ⟨?_, by simp, ?_, ?_⟩
    · simp only [GraphLayer.size] at hlen ⊢
      simp only [List.length_append, List.length_singleton]
      omega
    · exact (prot_append_preserves g _ rfl hwf hsymm).1
    · exact (prot_append_preserves g _ rfl hwf hsymm).2
  · simp only [addNode, if_neg hl]
    exact ⟨hlen, stLookup_ne_neg_one hl, hwf, hsymm⟩

theorem r_finish_inv {rs : ReadState} (hinv : ReadInv rs)
    (hstate : rs.state = 'c' ∨ rs.state = 'r' ∨ rs.state = 'p')
    (protName : String) :
    ReadInv { rs with
      g := connect
        { rs.g with
          proteinsToPSMs := (addNode rs.g.proteinsToPSMs rs.proteinNames protName).1 }
        (stLookup rs.PSMNames rs.pepName).toNat
        (stLookup (addNode rs.g.proteinsToPSMs rs.proteinNames protName).2 protName).toNat
      proteinNames := (addNode rs.g.proteinsToPSMs rs.proteinNames protName).2
      state := 'p' } := by
  obtain ⟨c1, c2, c3, c4, c5⟩ := hinv
  have hpep : rs.pepName ∈ rs.PSMNames := c5 hstate
  obtain ⟨d1, d2, d3, d4⟩ := addNode_prot_facts rs.g rs.proteinNames protName c2 c3 c4
  have hpidx : (stLookup rs.PSMNames rs.pepName).toNat <
      ({ rs.g with
        proteinsToPSMs := (addNode rs.g.proteinsToPSMs rs.proteinNames protName).1 } :
        BasicBigraph).PSMsToProteins.size := by
    have := stLookup_toNat_lt hpep
    rw [c1] at this
    exact this
  have hridx : (stLookup (addNode rs.g.proteinsToPSMs rs.proteinNames protName).2 protName).toNat <
      ({ rs.g with
        proteinsToPSMs := (addNode rs.g.proteinsToPSMs rs.proteinNames protName).1 } :
        BasicBigraph).proteinsToPSMs.size := by
    have := stLookup_toNat_lt d2
    rw [d1] at this
    exact this
  obtain ⟨e1, e2⟩ := connect_preserves _ d3 d4 hpidx hridx
  obtain ⟨f1, f2⟩ := connect_sizes
    { rs.g with
      proteinsToPSMs := (addNode rs.g.proteinsToPSMs rs.proteinNames protName).1 }
    (stLookup rs.PSMNames rs.pepName).toNat
    (stLookup (addNode rs.g.proteinsToPSMs rs.proteinNames protName).2 protName).toNat
  refine ⟨?_, ?_, e1, e2, fun _ => hpep⟩
  · show rs.PSMNames.length = _
    rw [f1]
    exact c1
  · show (addNode rs.g.proteinsToPSMs rs.proteinNames protName).2.length = _
    rw [f2]
    exact d1

theorem readStep_inv {doClean useAll : Bool} {rs : ReadState} {i : Instr}
    {rs' : ReadState} (hinv : ReadInv rs)
    (h : readStep doClean useAll rs i = Except.ok rs') : ReadInv rs' := by
  obtain ⟨c1, c2, c3, c4, c5⟩ := hinv
  cases i with
  | d charge prior =>
    simp only [readStep] at h
    cases h
    refine ⟨c1, c2, ?_, ?_, c5⟩
    · exact (invariants_congr rs.g _ rfl rfl c3 c4).1
    · exact (invariants_congr rs.g _ rfl rfl c3 c4).2
  | e rawName =>
    simp only [readStep] at h
    by_cases hs : rs.state = 'e' ∨ rs.state = 'p'
    · rw [if_pos hs] at h
      by_cases hp : rs.state = 'p'
      · rw [if_pos hp] at h
        by_cases hv : rs.value = -10
        · rw [if_pos hv] at h
          exact absurd h (by simp [Except.bind])
        · rw [if_neg hv] at h
          simp only [Except.bind] at h
          cases h
          exact e_finish_inv (pending_inv ⟨c1, c2, c3, c4, c5⟩ _) _
      · rw [if_neg hp] at h
        simp only [Except.bind] at h
        cases h
        exact e_finish_inv ⟨c1, c2, c3, c4, c5⟩ _
    · rw [if_neg hs] at h
      exact absurd h (by simp [unexpectedInstr])
  | c charge =>
    simp only [readStep] at h
    by_cases hs : rs.state = 'c'
    · rw [if_pos hs] at h
      cases h
      refine ⟨c1, c2, ?_, ?_, ?_⟩
      · exact (invariants_congr rs.g _ rfl rfl c3 c4).1
      · exact (invariants_congr rs.g _ rfl rfl c3 c4).2
      · intro _
        exact c5 (Or.inl hs)
    · rw [if_neg hs] at h
      exact absurd h (by simp [unexpectedInstr])
  | r protName =>
    simp only [readStep] at h
    by_cases hs : rs.state = 'c' ∨ rs.state = 'r' ∨ rs.state = 'p'
    · rw [if_pos hs] at h
      cases h
      exact r_finish_inv ⟨c1, c2, c3, c4, c5⟩ hs protName
    · rw [if_neg hs] at h
      exact absurd h (by simp [unexpectedInstr])
  | p value =>
    simp only [readStep] at h
    by_cases hs : rs.state = 'p'
    · rw [if_pos hs] at h
      cases h
      refine ⟨c1, c2, ?_, ?_, ?_⟩
      · exact (invariants_congr rs.g _ rfl rfl c3 c4).1
      · exact (invariants_congr rs.g _ rfl rfl c3 c4).2
      · intro hc
        rcases hc with hc | hc | hc <;> simp at hc
    · rw [if_neg hs] at h
      exact absurd h (by simp [unexpectedInstr])
  | comment rest =>
    simp only [readStep] at h
    cases h
    exact ⟨c1, c2, c3, c4, c5⟩
  | unknown t rest =>
    simp only [readStep] at h
    exact absurd h (by simp [unexpectedInstr])

theorem readLoop_inv {doClean useAll : Bool} :
    ∀ (input : List Instr) (rs rs' : ReadState), ReadInv rs →
      readLoop doClean useAll rs input = Except.ok rs' → ReadInv rs'
  | [], rs, rs', hinv, h => by
    simp only [readLoop] at h
    cases h
    exact hinv
  | i :: rest, rs, rs', hinv, h => by
    simp only [readLoop] at h
    cases hstep : readStep doClean useAll rs i with
    | ok rs1 =>
      rw [hstep] at h
      exact readLoop_inv rest rs1 rs' (readStep_inv hinv hstep) h
    | error err =>
      rw [hstep] at h
      exact absurd h (by simp)

theorem read_ok_invariants {doClean useAll : Bool} {protThresh pepThresh : ℚ}
    {input : List Instr} {g : BasicBigraph}
    (h : read doClean useAll protThresh pepThresh input = Except.ok g) :
    BigraphWf g ∧ BigraphSymm g := by
  simp only [read] at h
  cases hloop : readLoop doClean useAll
      { g := { emptyBigraph with
          ProteinThreshold := protThresh, PeptideThreshold := pepThresh }
        PSMNames := []
        proteinNames := []
        pepName := ""
        value := -10
        pepIndex := -1
        chargeState := 0
        state := 'e'
        log := [] } input with
  | ok rs =>
    have hinv0 : ReadInv
        { g := { emptyBigraph with
            ProteinThreshold := protThresh, PeptideThreshold := pepThresh }
          PSMNames := []
          proteinNames := []
          pepName := ""
          value := -10
          pepIndex := -1
          chargeState := 0
          state := 'e'
          log := [] } := by
      refine ⟨rfl, rfl, ⟨?_, ?_⟩, ?_, ?_⟩
      · intro p hp
        simp [emptyBigraph, GraphLayer.size] at hp
      · intro r hr
        simp [emptyBigraph, GraphLayer.size] at hr
      · intro p r hp hr
        simp [emptyBigraph, GraphLayer.size] at hp
      · intro hc
        rcases hc with hc | hc | hc <;> simp at hc
    have hrs := readLoop_inv input _ rs hinv0 hloop
    rw [hloop] at h
    simp only [Except.map] at h
    cases h
    refine And.intro ?_ ?_
    · exact (invariants_congr rs.g _ rfl rfl hrs.wf hrs.symm).1
    · exact (invariants_congr rs.g _ rfl rfl hrs.wf hrs.symm).2
  | error err =>
    rw [hloop] at h
    exact absurd h (by simp [Except.map])

theorem reachable_wf_symm {g : BasicBigraph} (h : Reachable g) :
    BigraphWf g ∧ BigraphSymm g := by
  induction h with
  | ofRead _ _ _ _ _ _ hok => exact read_ok_invariants hok
  | ofConnect g pI rI _ hp hr ih => exact connect_preserves g ih.1 ih.2 hp hr
  | ofDisconnectPSM g k _ ih => exact disconnectPSM_preserves g k ih.1 ih.2
  | ofDisconnectProtein g k _ ih => exact disconnectProtein_preserves g k ih.1 ih.2
  | ofClonePSM g k _ hk ih => exact clonePSM_preserves g ih.1 ih.2 hk
  | ofReindex g _ ih => exact reindex_preserves g ih.1 ih.2

/-- C1: Bipartite symmetry invariant — for every `EvidenceBigraph`
reachable by construction (`read`), edge insertion (`connect`),
disconnection (`disconnectPSM`, `disconnectProtein`), cloning
(`clonePSM`), and reindexing (`reindex`), and for every peptide index `p`
and protein index `r`, `r` is a member of the peptide-side neighbour set
of `p` if and only if `p` is a member of the protein-side neighbour set of
`r`. -/
theorem C1_bipartite_symmetry (g : BasicBigraph) (h : Reachable g) :
    BigraphSymm g :=
  (reachable_wf_symm h).2

theorem C1_bipartite_symmetry_witness : BigraphSymm c1WitnessGraph :=
  C1_bipartite_symmetry c1WitnessGraph
    (Reachable.ofRead true false 0 0
      [Instr.e "PEPTIDEA", Instr.c 2, Instr.r "PROT1", Instr.p (mkRat 9 10)]
      c1WitnessGraph (by rfl))

/-! ### C5: frame condition of `reindex` -/

/-- C5 counterexample: `reindex` does NOT leave `ProteinThreshold`
unchanged — the backup/restore in `BasicBigraph::reindex` restores
`numberClones`, `severedProteins` and `PeptideThreshold` but omits
`ProteinThreshold`, which therefore comes back as the default-constructed
value; on a graph whose threshold differs from that default the field
changes. -/
theorem C5_counterexample :
    (reindex c5Graph).ProteinThreshold ≠ c5Graph.ProteinThreshold := by
  show defaultProteinThreshold ≠ defaultProteinThreshold + 1
  simp

/-- C5 (amended): `reindex` changes only graph-structural state apart from
`ProteinThreshold`: `PeptideThreshold`, the severed-protein list and the
clone counter hold the same values after `reindex` as before it, while
`ProteinThreshold` is reset to the default-constructed value. -/
theorem C5_reindex_frame (g : BasicBigraph) :
    (reindex g).PeptideThreshold = g.PeptideThreshold ∧
    (reindex g).severedProteins = g.severedProteins ∧
    (reindex g).numberClones = g.numberClones ∧
    (reindex g).ProteinThreshold = defaultProteinThreshold :=
  ⟨rfl, rfl, rfl, rfl⟩

/-! ### C6: noisy-OR score combination -/

/-- C6: under the all-matches policy, a `p` directive carrying score `v`
for a peptide whose stored weight is `w` stores `v` when `w` is the
unassigned sentinel `-1` and `1 - (1-w)*(1-v)` otherwise; in particular
two `p` directives with scores `0.5` and `0.4` for the same peptide name
yield final weight `0.7`. -/
theorem C6_noisy_or :
    (∀ (doClean : Bool) (rs : ReadState) (v : ℚ), rs.state = 'p' →
      rs.pepIndex.toNat < rs.g.PSMsToProteins.weights.length →
      (readStep doClean true rs (Instr.p v)).map
          (fun s => s.g.PSMsToProteins.weights.getD rs.pepIndex.toNat 0) =
        Except.ok
          (if rs.g.PSMsToProteins.weight rs.pepIndex.toNat = -1 then v
           else 1 - (1 - rs.g.PSMsToProteins.weight rs.pepIndex.toNat) * (1 - v))) ∧
    (read true true 0 0
        [Instr.e "PEP", Instr.c 1, Instr.r "PROT", Instr.p (mkRat 1 2),
          Instr.e "PEP", Instr.c 1, Instr.r "PROT", Instr.p (mkRat 2 5)]).map
      (fun g => g.PSMsToProteins.weights) = Except.ok [mkRat 7 10] := by
  constructor
  · intro doClean rs v hs hlen
    simp only [readStep, if_pos hs, Except.map]
    rw [getD_set_self _ _ hlen _]
    simp [GraphLayer.weight]
  · simp +decide [read, readLoop, readStep, addNode, stLookup, cleanPeptideSequence,
      cleanChars, cleanFilter, connect, pseudoCountPSMs, emptyBigraph,
      GraphLayer.weight, GraphLayer.assoc, Except.map, Except.bind, setPrior,
      Rat.mkRat_eq_divInt, Rat.divInt_eq_div]
    norm_num

theorem C6_noisy_or_witness :
    (readStep true true c6State (Instr.p (mkRat 2 5))).map
        (fun s => s.g.PSMsToProteins.weights.getD c6State.pepIndex.toNat 0) =
      Except.ok
        (if c6State.g.PSMsToProteins.weight c6State.pepIndex.toNat = -1 then mkRat 2 5
         else 1 - (1 - c6State.g.PSMsToProteins.weight c6State.pepIndex.toNat) *
           (1 - mkRat 2 5)) :=
  C6_noisy_or.1 true c6State (mkRat 2 5) (by decide) (by decide)

/-! ### C7: the pseudo-count floor -/

theorem readStep_pepThreshold {doClean useAll : Bool} {rs : ReadState}
    {i : Instr} {rs' : ReadState}
    (h : readStep doClean useAll rs i = Except.ok rs') :
    rs'.g.PeptideThreshold = rs.g.PeptideThreshold := by
  cases i with
  | d charge prior =>
    simp only [readStep] at h
    cases h
    rfl
  | e rawName =>
    simp only [readStep] at h
    by_cases hs : rs.state = 'e' ∨ rs.state = 'p'
    · rw [if_pos hs] at h
      by_cases hp : rs.state = 'p'
      · rw [if_pos hp] at h
        by_cases hv : rs.value = -10
        · rw [if_pos hv] at h
          exact absurd h (by simp [Except.bind])
        · rw [if_neg hv] at h
          simp only [Except.bind] at h
          cases h
          rfl
      · rw [if_neg hp] at h
        simp only [Except.bind] at h
        cases h
        rfl
    · rw [if_neg hs] at h
      exact absurd h (by simp [unexpectedInstr])
  | c charge =>
    simp only [readStep] at h
    by_cases hs : rs.state = 'c'
    · rw [if_pos hs] at h
      cases h
      rfl
    · rw [if_neg hs] at h
      exact absurd h (by simp [unexpectedInstr])
  | r protName =>
    simp only [readStep] at h
    by_cases hs : rs.state = 'c' ∨ rs.state = 'r' ∨ rs.state = 'p'
    · rw [if_pos hs] at h
      cases h
      rfl
    · rw [if_neg hs] at h
      exact absurd h (by simp [unexpectedInstr])
  | p value =>
    simp only [readStep] at h
    by_cases hs : rs.state = 'p'
    · rw [if_pos hs] at h
      cases h
      rfl
    · rw [if_neg hs] at h
      exact absurd h (by simp [unexpectedInstr])
  | comment rest =>
    simp only [readStep] at h
    cases h
    rfl
  | unknown t rest =>
    simp only [readStep] at h
    exact absurd h (by simp [unexpectedInstr])

theorem readLoop_pepThreshold {doClean useAll : Bool} :
    ∀ (input : List Instr) (rs rs' : ReadState),
      readLoop doClean useAll rs input = Except.ok rs' →
      rs'.g.PeptideThreshold = rs.g.PeptideThreshold
  | [], rs, rs', h => by
    simp only [readLoop] at h
    cases h
    rfl
  | i :: rest, rs, rs', h => by
    simp only [readLoop] at h
    cases hstep : readStep doClean useAll rs i with
    | ok rs1 =>
      rw [hstep] at h
      rw [readLoop_pepThreshold rest rs1 rs' h]
      exact readStep_pepThreshold hstep
    | error err =>
      rw [hstep] at h
      exact absurd h (by simp)

theorem pseudoCount_floor_getD (g : BasicBigraph) (k : ℕ)
    (hk : k < g.PSMsToProteins.weights.length) :
    (pseudoCountPSMs g).PSMsToProteins.weights.getD k 0 =
      (if g.PSMsToProteins.weights.getD k 0 < g.PeptideThreshold
       then g.PeptideThreshold else g.PSMsToProteins.weights.getD k 0) := by
  simp only [pseudoCountPSMs]
  rw [List.getD_eq_getElem _ _ (by simpa using hk), List.getElem_map,
    List.getD_eq_getElem _ _ hk]

theorem pseudoCount_ge (g : BasicBigraph) (k : ℕ)
    (hk : k < g.PSMsToProteins.weights.length) :
    g.PeptideThreshold ≤ (pseudoCountPSMs g).PSMsToProteins.weights.getD k 0 := by
  rw [pseudoCount_floor_getD g k hk]
  split
  · exact le_refl _
  · exact le_of_not_lt (by assumption)

/-- C7: after a successful `read`, `PeptideThreshold` is the caller's
value, every weight below the threshold was set to exactly the threshold
by the final `pseudoCountPSMs` pass, hence every peptide weight is at
least the threshold; under the precondition `0 ≤ pepThresh` no weight
equals the `-1` sentinel. -/
theorem C7_pseudo_count_floor :
    (∀ (g : BasicBigraph) (k : ℕ), k < g.PSMsToProteins.weights.length →
      (pseudoCountPSMs g).PSMsToProteins.weights.getD k 0 =
        (if g.PSMsToProteins.weights.getD k 0 < g.PeptideThreshold
         then g.PeptideThreshold else g.PSMsToProteins.weights.getD k 0)) ∧
    (∀ (doClean useAll : Bool) (protThresh pepThresh : ℚ)
      (input : List Instr) (g : BasicBigraph),
      read doClean useAll protThresh pepThresh input = Except.ok g →
      g.PeptideThreshold = pepThresh ∧
        ∀ k, k < g.PSMsToProteins.weights.length →
          pepThresh ≤ g.PSMsToProteins.weights.getD k 0 ∧
            (0 ≤ pepThresh → g.PSMsToProteins.weights.getD k 0 ≠ -1)) := by
  refine ⟨pseudoCount_floor_getD, ?_⟩
  intro doClean useAll protThresh pepThresh input g hok
  simp only [read] at hok
  cases hloop : readLoop doClean useAll
      { g := { emptyBigraph with
          ProteinThreshold := protThresh, PeptideThreshold := pepThresh }
        PSMNames := []
        proteinNames := []
        pepName := ""
        value := -10
        pepIndex := -1
        chargeState := 0
        state := 'e'
        log := [] } input with
  | ok rs =>
    rw [hloop] at hok
    simp only [Except.map] at hok
    have hth : rs.g.PeptideThreshold = pepThresh :=
      readLoop_pepThreshold input _ rs hloop
    cases hok
    refine ⟨hth, ?_⟩
    intro k hk
    have hk' : k < rs.g.PSMsToProteins.weights.length := by
      simpa [pseudoCountPSMs] using hk
    have hge := pseudoCount_ge
      { rs.g with
        PSMsToProteins := { rs.g.PSMsToProteins with names := rs.PSMNames }
        proteinsToPSMs := { rs.g.proteinsToPSMs with names := rs.proteinNames } } k hk'
    have hth' : ({ rs.g with
        PSMsToProteins := { rs.g.PSMsToProteins with names := rs.PSMNames }
        proteinsToPSMs := { rs.g.proteinsToPSMs with names := rs.proteinNames } } :
        BasicBigraph).PeptideThreshold = pepThresh := hth
    rw [hth'] at hge
    refine ⟨hge, ?_⟩
    intro h0 heq
    rw [heq] at hge
    linarith
  | error err =>
    rw [hloop] at hok
    exact absurd hok (by simp [Except.map])

theorem C7_pseudo_count_floor_witness :
    c7Graph.PeptideThreshold = mkRat 3 4 ∧
      (mkRat 3 4 : ℚ) ≤ c7Graph.PSMsToProteins.weights.getD 0 0 ∧
      (0 ≤ (mkRat 3 4 : ℚ) → c7Graph.PSMsToProteins.weights.getD 0 0 ≠ -1) := by
  have h := C7_pseudo_count_floor.2 true false 0 (mkRat 3 4)
    [Instr.e "AA", Instr.r "P", Instr.p (mkRat 1 2)] c7Graph (by rfl)
  exact ⟨h.1, (h.2 0 (by decide)).1, (h.2 0 (by decide)).2⟩

/-! ### C8: peptide-name normalization -/

theorem cleanFilter_eq_filterMap (l : List Char) :
    cleanFilter l = l.filterMap
      (fun ch => if 'A' ≤ ch ∧ ch ≤ 'Z' then some (if ch = 'I' then 'L' else ch)
        else none) := by
  induction l with
  | nil => rfl
  | cons c t ih =>
    simp only [cleanFilter, List.filterMap_cons]
    by_cases h : 'A' ≤ c ∧ c ≤ 'Z'
    · rw [if_pos h, if_pos h]
      by_cases hI : c = 'I'
      · simp [hI, ih]
      · simp [hI, ih]
    · rw [if_neg h, if_neg h, ih]

theorem cleanFilter_mem : ∀ {l : List Char} {c : Char}, c ∈ cleanFilter l →
    'A' ≤ c ∧ c ≤ 'Z' ∧ c ≠ 'I'
  | [], c, h => by simp [cleanFilter] at h
  | a :: t, c, h => by
    simp only [cleanFilter] at h
    by_cases ha : 'A' ≤ a ∧ a ≤ 'Z'
    · rw [if_pos ha] at h
      rcases List.mem_cons.mp h with heq | h'
      · by_cases hI : a = 'I'
        · rw [if_neg (by simpa using hI)] at heq
          subst heq
          exact ⟨by decide, by decide, by decide⟩
        · rw [if_pos hI] at heq
          subst heq
          exact ⟨ha.1, ha.2, hI⟩
      · exact cleanFilter_mem h'
    · rw [if_neg ha] at h
      exact cleanFilter_mem h

theorem cleanFilter_fixed : ∀ {l : List Char},
    (∀ c ∈ l, 'A' ≤ c ∧ c ≤ 'Z' ∧ c ≠ 'I') → cleanFilter l = l
  | [], _ => rfl
  | a :: t, h => by
    have ha := h a (List.mem_cons_self a t)
    simp only [cleanFilter]
    rw [if_pos ⟨ha.1, ha.2.1⟩, if_pos ha.2.2,
      cleanFilter_fixed (fun c hc => h c (List.mem_cons_of_mem a hc))]

theorem cleanChars_mem {l : List Char} {c : Char} (hc : c ∈ cleanChars l) :
    'A' ≤ c ∧ c ≤ 'Z' ∧ c ≠ 'I' := by
  simp only [cleanChars] at hc
  exact cleanFilter_mem hc

theorem cleanChars_of_upper {m : List Char}
    (hup : ∀ c ∈ m, 'A' ≤ c ∧ c ≤ 'Z' ∧ c ≠ 'I') : cleanChars m = m := by
  have hnodot : m.getD 1 (Char.ofNat 0) ≠ '.' := by
    rcases Nat.lt_or_ge 1 m.length with h | h
    · rw [List.getD_eq_getElem _ _ h]
      have hc := hup _ (List.getElem_mem h)
      intro heq
      rw [heq] at hc
      exact absurd hc.1 (by decide)
    · rw [List.getD_eq_default _ _ h]
      decide
  simp only [cleanChars]
  rw [if_neg hnodot]
  exact cleanFilter_fixed hup

/-- C8: `cleanPeptideSequence` strips the cleavage-site flanking characters
(the first two and last two characters) when position 1 holds a dot,
retains only capital letters, maps every `I` to `L`, and is idempotent. -/
theorem C8_clean_normalization :
    (∀ l : List Char, 4 ≤ l.length → l.getD 1 (Char.ofNat 0) = '.' →
      cleanChars l = cleanFilter ((l.take (l.length - 2)).drop 2)) ∧
    (∀ l : List Char, l.getD 1 (Char.ofNat 0) ≠ '.' →
      cleanChars l = cleanFilter l) ∧
    (∀ l : List Char, ∀ c ∈ cleanChars l, 'A' ≤ c ∧ c ≤ 'Z' ∧ c ≠ 'I') ∧
    (∀ l : List Char, cleanFilter l = l.filterMap
      (fun ch => if 'A' ≤ ch ∧ ch ≤ 'Z' then some (if ch = 'I' then 'L' else ch)
        else none)) ∧
    (∀ s : String, cleanPeptideSequence (cleanPeptideSequence s) =
      cleanPeptideSequence s) := by
  refine ⟨?_, ?_, ?_, cleanFilter_eq_filterMap, ?_⟩
  · intro l h4 hdot
    simp only [cleanChars, if_pos hdot, if_neg (Nat.not_lt.mpr h4)]
    have harith : 2 + (l.length - 4) = l.length - 2 := by omega
    rw [List.take_drop, harith]
  · intro l hnodot
    simp only [cleanChars, if_neg hnodot]
  · intro l c hc
    exact cleanChars_mem hc
  · intro s
    show String.mk (cleanChars (cleanChars s.data)) = String.mk (cleanChars s.data)
    rw [cleanChars_of_upper (fun c hc => cleanChars_mem hc)]

theorem C8_clean_normalization_witness :
    4 ≤ "K.ABIC.R".data.length ∧
    "K.ABIC.R".data.getD 1 (Char.ofNat 0) = '.' ∧
    cleanChars "K.ABIC.R".data =
      cleanFilter (("K.ABIC.R".data.take ("K.ABIC.R".data.length - 2)).drop 2) :=
  ⟨by decide, by decide, C8_clean_normalization.1 _ (by decide) (by decide)⟩

/-! ### C9: unexpected-directive error -/

/-- C9: a leading token that is not a recognised directive tag, or a
recognised directive arriving in a state that does not accept it, makes
`read` consume the line and raise a `FormatException` whose diagnostics
carry the full line text; in particular an input beginning with `c 2`
fails that way. -/
theorem C9_unexpected_directive :
    (∀ (doClean useAll : Bool) (rs : ReadState) (i : Instr),
      readAccepts rs.state i = false →
      readStep doClean useAll rs i = Except.error
        ⟨["unexpected instruction " ++ String.mk [i.tagChar] ++ " in state " ++
            toString rs.state.toNat,
          "the input line was: " ++ i.lineText]⟩) ∧
    (∃ err : FormatError, read true false 0 0 [Instr.c 2] = Except.error err ∧
      "the input line was: c 2" ∈ err.diagnostics) := by
  constructor
  · intro doClean useAll rs i hacc
    cases i with
    | d charge prior => simp [readAccepts] at hacc
    | e rawName =>
      have hs : ¬ (rs.state = 'e' ∨ rs.state = 'p') := by
        simpa [readAccepts] using hacc
      simp only [readStep, if_neg hs]
      rfl
    | c charge =>
      have hs : ¬ rs.state = 'c' := by simpa [readAccepts] using hacc
      simp only [readStep, if_neg hs]
      rfl
    | r protName =>
      have hs : ¬ (rs.state = 'c' ∨ rs.state = 'r' ∨ rs.state = 'p') := by
        simpa [readAccepts] using hacc
      simp only [readStep, if_neg hs]
      rfl
    | p value =>
      have hs : ¬ rs.state = 'p' := by simpa [readAccepts] using hacc
      simp only [readStep, if_neg hs]
      rfl
    | comment rest => simp [readAccepts] at hacc
    | unknown t rest =>
      simp only [readStep]
      rfl
  · exact ⟨⟨["unexpected instruction c in state 101", "the input line was: c 2"]⟩,
      by rfl, by decide⟩

theorem C9_unexpected_directive_witness :
    readStep true false initReadState (Instr.c 2) = Except.error
      ⟨["unexpected instruction " ++ String.mk [(Instr.c 2).tagChar] ++
          " in state " ++ toString initReadState.state.toNat,
        "the input line was: " ++ (Instr.c 2).lineText]⟩ :=
  C9_unexpected_directive.1 true false initReadState (Instr.c 2) (by decide)

/-! ### C10: implicit bounds of `cleanPeptideSequence` -/

/-- C10: the checked evaluator of `cleanPeptideSequence` succeeds exactly
when the name has at least two characters, and at least four when the
character at position 1 is a dot (the accesses `pepSeq[1]` and
`substr(2, size()-4)` of the source); when it succeeds it agrees with the
unchecked function; and the `e` branch of `read` with name-cleaning
enabled feeds every incoming name to `cleanPeptideSequence` with no
length check. -/
theorem C10_clean_bounds :
    (∀ l : List Char, (cleanPeptideSequenceChecked l).isSome ↔
      (2 ≤ l.length ∧ (l.getD 1 (Char.ofNat 0) = '.' → 4 ≤ l.length))) ∧
    (∀ (l r : List Char), cleanPeptideSequenceChecked l = some r →
      r = cleanChars l) ∧
    (∀ (useAll : Bool) (rs : ReadState) (name : String), rs.state = 'e' →
      (readStep true useAll rs (Instr.e name)).map (fun s => s.pepName) =
        Except.ok (cleanPeptideSequence name)) := by
  refine ⟨?_, ?_, ?_⟩
  · intro l
    simp only [cleanPeptideSequenceChecked]
    by_cases h1 : 1 < l.length
    · rw [dif_pos h1]
      have hgd : l.getD 1 (Char.ofNat 0) = l.get ⟨1, h1⟩ := by
        rw [List.getD_eq_getElem _ _ h1]
        rfl
      by_cases hdot : l.get ⟨1, h1⟩ = '.'
      · rw [if_pos hdot]
        by_cases h4 : 4 ≤ l.length
        · rw [if_pos h4]
          simp only [Option.isSome_some, true_iff]
          exact ⟨by omega, fun _ => h4⟩
        · rw [if_neg h4]
          constructor
          · intro habs
            simp at habs
          · intro hcontra
            exfalso
            refine h4 (hcontra.2 ?_)
            rw [hgd]
            exact hdot
      · rw [if_neg hdot]
        simp only [Option.isSome_some, true_iff]
        refine ⟨by omega, fun hcontra => ?_⟩
        rw [hgd] at hcontra
        exact absurd hcontra hdot
    · rw [dif_neg h1]
      constructor
      · intro habs
        simp at habs
      · intro hcontra
        exfalso
        obtain ⟨h2, -⟩ := hcontra
        omega
  · intro l r h
    simp only [cleanPeptideSequenceChecked] at h
    by_cases h1 : 1 < l.length
    · rw [dif_pos h1] at h
      have hgd : l.getD 1 (Char.ofNat 0) = l.get ⟨1, h1⟩ := by
        rw [List.getD_eq_getElem _ _ h1]
        rfl
      by_cases hdot : l.get ⟨1, h1⟩ = '.'
      · rw [if_pos hdot] at h
        by_cases h4 : 4 ≤ l.length
        · rw [if_pos h4] at h
          cases h
          simp only [cleanChars, hgd, if_pos hdot, if_neg (Nat.not_lt.mpr h4)]
        · rw [if_neg h4] at h
          exact absurd h (by simp)
      · rw [if_neg hdot] at h
        cases h
        simp only [cleanChars, hgd, if_neg hdot]
    · rw [dif_neg h1] at h
      exact absurd h (by simp)
  · intro useAll rs name hs
    have hor : rs.state = 'e' ∨ rs.state = 'p' := Or.inl hs
    have hnp : ¬ rs.state = 'p' := by
      rw [hs]
      decide
    simp only [readStep, if_pos hor, if_neg hnp, Except.bind, Except.map]
    rfl

theorem C10_clean_bounds_witness :
    ¬ (cleanPeptideSequenceChecked "".data).isSome ∧
      (readStep true false initReadState (Instr.e "")).map
          (fun s => s.pepName) = Except.ok (cleanPeptideSequence "") := by
  constructor
  · intro hcontra
    have h := (C10_clean_bounds.1 "".data).mp hcontra
    simp at h
  · exact C10_clean_bounds.2.2 false initReadState "" (by decide)

/-! ### C4: pending-score handling in `read` -/

/-- C4 evaluated on the code: at the failing input the warning path does
NOT assign the last floating value — the source sets `value = -1` and then
`max(value, weight)`, so `BBB` keeps the `-1` sentinel, which the final
floor raises to the threshold `0` instead of the promised `1/2`; at
end-of-input with a score still pending (and no previous score at all)
`read` returns successfully instead of raising; only the
no-previous-score case on a new `e` throws the `FormatException` the
claim describes. -/
theorem C4_pending_score_behavior :
    (read true false 0 0 c4Input).map (fun g => g.PSMsToProteins.weights) =
        Except.ok [mkRat 1 2, 0, mkRat 3 4] ∧
      (mkRat 1 2 : ℚ) ≠ 0 ∧
      (read true false 0 (mkRat 1 4) [Instr.e "AAA", Instr.c 1, Instr.r "PA"]).map
          (fun g => g.PSMsToProteins.weights) = Except.ok [mkRat 1 4] ∧
      read true false 0 0 [Instr.e "AAA", Instr.c 1, Instr.r "PA", Instr.e "BBB"] =
        Except.error
          ⟨["Warning: no peptide score for peptide entry AAA, using last score (" ++
              toString (-10 : ℚ) ++ ")",
            "Error: No previous peptide entry to use"]⟩ := by
  refine ⟨by rfl, by decide, by rfl, by rfl⟩

/-! ### C3: component marking -/

theorem touchesOf_append (l1 l2 : List TouchEvent) (side : GSide) (i : ℕ) :
    touchesOf (l1 ++ l2) side i = touchesOf l1 side i ++ touchesOf l2 side i := by
  simp [touchesOf]

theorem touchesOf_single (side sd : GSide) (i j : ℕ) (s : ℤ) :
    touchesOf [⟨side, i, s⟩] sd j = if side = sd ∧ i = j then [s] else [] := by
  by_cases h : side = sd ∧ i = j
  · obtain ⟨rfl, rfl⟩ := h
    simp [touchesOf]
  · rw [if_neg h]
    rcases not_and_or.mp h with h1 | h1 <;> simp [touchesOf, h1]

theorem getD_replicate {n : ℕ} (a d : α) {i : ℕ} (hi : i < n) :
    (List.replicate n a).getD i d = a := by
  rw [List.getD_eq_getElem _ _ (by simpa using hi)]
  simp

theorem touch_preserves (g : BasicBigraph) (side : GSide) (i : ℕ) (s : ℤ)
    (log : List TouchEvent) (hst : MarkStInv g) (hok : MarkOK g log)
    (hi : i < (g.layer side).size) :
    MarkStInv (addSectionMark (setSection g side i s) side i s) ∧
      MarkOK (addSectionMark (setSection g side i s) side i s)
        (log ++ [⟨side, i, s⟩]) := by
  obtain ⟨hpl, hpm, hrl, hrm⟩ := hst
  cases side with
  | pep =>
    have hi' : i < g.PSMsToProteins.size := hi
    constructor
    · refine ⟨?_, ?_, ?_, ?_⟩
      · simpa [addSectionMark, setSection, GraphLayer.size] using hpl
      · simpa [addSectionMark, setSection, GraphLayer.size] using hpm
      · simpa [addSectionMark, setSection, GraphLayer.size] using hrl
      · simpa [addSectionMark, setSection, GraphLayer.size] using hrm
    · intro sd j hj
      cases sd with
      | pep =>
        have hj' : j < g.PSMsToProteins.size := hj
        obtain ⟨hm, hs⟩ := hok GSide.pep j hj'
        simp only [BasicBigraph.layer, GraphLayer.markOf, GraphLayer.sectionOf]
          at hm hs ⊢
        simp only [addSectionMark, setSection, GraphLayer.markOf]
        rw [touchesOf_append, touchesOf_single]
        by_cases hij : i = j
        · subst hij
          rw [if_pos ⟨rfl, rfl⟩]
          constructor
          · rw [getD_set_self _ _ (by rw [hpm]; exact hi') _, hm]
            simp
          · rw [getD_set_self _ _ (by rw [hpl]; exact hi') _, List.getLast?_concat]
            rfl
        · rw [if_neg (fun hc => hij hc.2)]
          rw [List.append_nil, getD_set_ne _ hij _ _, getD_set_ne _ hij _ _]
          exact ⟨hm, hs⟩
      | prot =>
        have hj' : j < g.proteinsToPSMs.size := hj
        obtain ⟨hm, hs⟩ := hok GSide.prot j hj'
        simp only [BasicBigraph.layer, GraphLayer.markOf, GraphLayer.sectionOf]
          at hm hs ⊢
        simp only [addSectionMark, setSection]
        rw [touchesOf_append, touchesOf_single, if_neg (by simp), List.append_nil]
        exact ⟨hm, hs⟩
  | prot =>
    have hi' : i < g.proteinsToPSMs.size := hi
    constructor
    · refine ⟨?_, ?_, ?_, ?_⟩
      · simpa [addSectionMark, setSection, GraphLayer.size] using hpl
      · simpa [addSectionMark, setSection, GraphLayer.size] using hpm
      · simpa [addSectionMark, setSection, GraphLayer.size] using hrl
      · simpa [addSectionMark, setSection, GraphLayer.size] using hrm
    · intro sd j hj
      cases sd with
      | prot =>
        have hj' : j < g.proteinsToPSMs.size := hj
        obtain ⟨hm, hs⟩ := hok GSide.prot j hj'
        simp only [BasicBigraph.layer, GraphLayer.markOf, GraphLayer.sectionOf]
          at hm hs ⊢
        simp only [addSectionMark, setSection, GraphLayer.markOf]
        rw [touchesOf_append, touchesOf_single]
        by_cases hij : i = j
        · subst hij
          rw [if_pos ⟨rfl, rfl⟩]
          constructor
          · rw [getD_set_self _ _ (by rw [hrm]; exact hi') _, hm]
            simp
          · rw [getD_set_self _ _ (by rw [hrl]; exact hi') _, List.getLast?_concat]
            rfl
        · rw [if_neg (fun hc => hij hc.2)]
          rw [List.append_nil, getD_set_ne _ hij _ _, getD_set_ne _ hij _ _]
          exact ⟨hm, hs⟩
      | pep =>
        have hj' : j < g.PSMsToProteins.size := hj
        obtain ⟨hm, hs⟩ := hok GSide.pep j hj'
        simp only [BasicBigraph.layer, GraphLayer.markOf, GraphLayer.sectionOf]
          at hm hs ⊢
        simp only [addSectionMark, setSection]
        rw [touchesOf_append, touchesOf_single, if_neg (by simp), List.append_nil]
        exact ⟨hm, hs⟩

theorem touch_out_of_range (g : BasicBigraph) (side : GSide) (i : ℕ) (s : ℤ)
    (hst : MarkStInv g) (hi : ¬ i < (g.layer side).size) :
    addSectionMark (setSection g side i s) side i s = g := by
  obtain ⟨hpl, hpm, hrl, hrm⟩ := hst
  cases side with
  | pep =>
    have hle : g.PSMsToProteins.size ≤ i := by
      simpa [BasicBigraph.layer, Nat.not_lt] using hi
    simp only [addSectionMark, setSection, GraphLayer.markOf]
    rw [List.set_eq_of_length_le (by rw [hpl]; exact hle),
      List.set_eq_of_length_le (by rw [hpm]; exact hle)]
  | prot =>
    have hle : g.proteinsToPSMs.size ≤ i := by
      simpa [BasicBigraph.layer, Nat.not_lt] using hi
    simp only [addSectionMark, setSection, GraphLayer.markOf]
    rw [List.set_eq_of_length_le (by rw [hrl]; exact hle),
      List.set_eq_of_length_le (by rw [hrm]; exact hle)]

theorem markOK_log_irrelevant (g : BasicBigraph) (log : List TouchEvent)
    (side : GSide) (i : ℕ) (s : ℤ) (hok : MarkOK g log)
    (hi : ¬ i < (g.layer side).size) :
    MarkOK g (log ++ [⟨side, i, s⟩]) := by
  intro sd j hj
  obtain ⟨hm, hs⟩ := hok sd j hj
  rw [touchesOf_append, touchesOf_single]
  have hne : ¬ (side = sd ∧ i = j) := by
    rintro ⟨rfl, rfl⟩
    exact hi hj
  rw [if_neg hne, List.append_nil]
  exact ⟨hm, hs⟩

theorem traceConnected_inv : ∀ (fuel : ℕ) (g : BasicBigraph) (side : GSide)
    (i : ℕ) (s : ℤ) (log : List TouchEvent),
    MarkStInv g → MarkOK g log →
    MarkStInv (traceConnected fuel g side i s).1 ∧
      MarkOK (traceConnected fuel g side i s).1
        (log ++ (traceConnected fuel g side i s).2)
  | 0, g, side, i, s, log, h1, h2 => by
    simp only [traceConnected]
    exact ⟨h1, by simpa using h2⟩
  | fuel + 1, g, side, i, s, log, h1, h2 => by
    simp only [traceConnected]
    by_cases hguard : (g.layer side).sectionOf i = s
    · rw [if_pos hguard]
      exact ⟨h1, by simpa using h2⟩
    · rw [if_neg hguard]
      have htouch : MarkStInv (addSectionMark (setSection g side i s) side i s) ∧
          MarkOK (addSectionMark (setSection g side i s) side i s)
            (log ++ [⟨side, i, s⟩]) := by
        by_cases hi : i < (g.layer side).size
        · exact touch_preserves g side i s log h1 h2 hi
        · rw [touch_out_of_range g side i s h1 hi]
          exact ⟨h1, markOK_log_irrelevant g log side i s h2 hi⟩
      by_cases hw : side = GSide.pep ∧ (g.layer side).weight i ≤ g.PeptideThreshold
      · rw [if_pos hw]
        exact htouch
      · rw [if_neg hw]
        have hfold : ∀ (lst : List ℕ) (acc : BasicBigraph × List TouchEvent),
            MarkStInv acc.1 → MarkOK acc.1 (log ++ acc.2) →
            MarkStInv ((lst.foldl (fun acc j =>
                ((traceConnected fuel acc.1 side.flip j s).1,
                  acc.2 ++ (traceConnected fuel acc.1 side.flip j s).2)) acc).1) ∧
              MarkOK ((lst.foldl (fun acc j =>
                ((traceConnected fuel acc.1 side.flip j s).1,
                  acc.2 ++ (traceConnected fuel acc.1 side.flip j s).2)) acc).1)
                (log ++ (lst.foldl (fun acc j =>
                  ((traceConnected fuel acc.1 side.flip j s).1,
                    acc.2 ++ (traceConnected fuel acc.1 side.flip j s).2)) acc).2) := by
          intro lst
          induction lst with
          | nil => exact fun acc ha hb => ⟨ha, hb⟩
          | cons j t ih =>
            intro acc ha hb
            simp only [List.foldl_cons]
            apply ih
            · exact (traceConnected_inv fuel acc.1 side.flip j s (log ++ acc.2) ha hb).1
            · have hrec :=
                (traceConnected_inv fuel acc.1 side.flip j s (log ++ acc.2) ha hb).2
              simpa [List.append_assoc] using hrec
        exact hfold _ _ htouch.1 htouch.2

theorem markSectionPartitions_ok (g : BasicBigraph) :
    MarkOK (markSectionPartitions g).2.1 (markSectionPartitions g).2.2 := by
  have hfold : ∀ (fuel : ℕ) (lst : List ℕ)
      (acc : ℕ × BasicBigraph × List TouchEvent),
      MarkStInv acc.2.1 → MarkOK acc.2.1 acc.2.2 →
      MarkStInv ((lst.foldl (fun (acc : ℕ × BasicBigraph × List TouchEvent) k =>
          if acc.2.1.proteinsToPSMs.sectionOf k = -1 then
            (acc.1 + 1, (traceConnected fuel acc.2.1 GSide.prot k (acc.1 : ℤ)).1,
              acc.2.2 ++ (traceConnected fuel acc.2.1 GSide.prot k (acc.1 : ℤ)).2)
          else acc) acc).2.1) ∧
        MarkOK ((lst.foldl (fun (acc : ℕ × BasicBigraph × List TouchEvent) k =>
          if acc.2.1.proteinsToPSMs.sectionOf k = -1 then
            (acc.1 + 1, (traceConnected fuel acc.2.1 GSide.prot k (acc.1 : ℤ)).1,
              acc.2.2 ++ (traceConnected fuel acc.2.1 GSide.prot k (acc.1 : ℤ)).2)
          else acc) acc).2.1)
          ((lst.foldl (fun (acc : ℕ × BasicBigraph × List TouchEvent) k =>
          if acc.2.1.proteinsToPSMs.sectionOf k = -1 then
            (acc.1 + 1, (traceConnected fuel acc.2.1 GSide.prot k (acc.1 : ℤ)).1,
              acc.2.2 ++ (traceConnected fuel acc.2.1 GSide.prot k (acc.1 : ℤ)).2)
          else acc) acc).2.2) := by
    intro fuel lst
    induction lst with
    | nil => exact fun acc h1 h2 => ⟨h1, h2⟩
    | cons k t ih =>
      intro acc h1 h2
      simp only [List.foldl_cons]
      by_cases hg : acc.2.1.proteinsToPSMs.sectionOf k = -1
      · rw [if_pos hg]
        exact ih _
          (traceConnected_inv fuel acc.2.1 GSide.prot k (acc.1 : ℤ) acc.2.2 h1 h2).1
          (traceConnected_inv fuel acc.2.1 GSide.prot k (acc.1 : ℤ) acc.2.2 h1 h2).2
      · rw [if_neg hg]
        exact ih acc h1 h2
  have base1 : MarkStInv { g with
      proteinsToPSMs := { g.proteinsToPSMs with
        sectionMarks := List.replicate g.proteinsToPSMs.size ∅
        sections := List.replicate g.proteinsToPSMs.size (-1) }
      PSMsToProteins := { g.PSMsToProteins with
        sectionMarks := List.replicate g.PSMsToProteins.size ∅
        sections := List.replicate g.PSMsToProteins.size (-1) } } := by
    refine ⟨?_, ?_, ?_, ?_⟩ <;> simp [GraphLayer.size]
  have base2 : MarkOK { g with
      proteinsToPSMs := { g.proteinsToPSMs with
        sectionMarks := List.replicate g.proteinsToPSMs.size ∅
        sections := List.replicate g.proteinsToPSMs.size (-1) }
      PSMsToProteins := { g.PSMsToProteins with
        sectionMarks := List.replicate g.PSMsToProteins.size ∅
        sections := List.replicate g.PSMsToProteins.size (-1) } } [] := by
    intro side i hi
    cases side with
    | pep =>
      have hi' : i < g.PSMsToProteins.size := hi
      constructor
      · show (List.replicate g.PSMsToProteins.size ∅).getD i ∅ = _
        rw [getD_replicate _ _ hi']
        rfl
      · show (List.replicate g.PSMsToProteins.size (-1 : ℤ)).getD i (-1) = _
        rw [getD_replicate _ _ hi']
        rfl
    | prot =>
      have hi' : i < g.proteinsToPSMs.size := hi
      constructor
      · show (List.replicate g.proteinsToPSMs.size ∅).getD i ∅ = _
        rw [getD_replicate _ _ hi']
        rfl
      · show (List.replicate g.proteinsToPSMs.size (-1 : ℤ)).getD i (-1) = _
        rw [getD_replicate _ _ hi']
        rfl
  exact (hfold (g.PSMsToProteins.size + g.proteinsToPSMs.size + 1) _ _ base1 base2).2

/-- C3 (amended): after `markSectionPartitions`, every node's
`componentMarks` set contains exactly the ids whose traversal touched that
node, and the node's final `component` field equals the LAST component id
that touched it (`-1` when never touched) — `traceConnected` overwrites
`section` on every touch, so among several touching ids the most recent
one, not the first, remains. -/
theorem C3_component_marking (g : BasicBigraph) (side : GSide) (i : ℕ)
    (hi : i < ((markSectionPartitions g).2.1.layer side).size) :
    ((markSectionPartitions g).2.1.layer side).markOf i =
      (touchesOf (markSectionPartitions g).2.2 side i).toFinset ∧
    ((markSectionPartitions g).2.1.layer side).sectionOf i =
      ((touchesOf (markSectionPartitions g).2.2 side i).getLast?).getD (-1) :=
  markSectionPartitions_ok g side i hi

/-- C3 counterexample: on `bridgeGraph` the traversal touches peptide 0
with id 0 first and id 1 second, and its final `component` is `1` — the
LAST touching id, not the first (which is `0`). -/
theorem C3_counterexample :
    touchesOf (markSectionPartitions bridgeGraph).2.2 GSide.pep 0 = [0, 1] ∧
    (markSectionPartitions bridgeGraph).2.1.PSMsToProteins.sectionOf 0 = 1 ∧
    ((0 : ℤ) :: [(1 : ℤ)]).headD (-1) = 0 ∧ (1 : ℤ) ≠ 0 := by
  refine ⟨by decide, by decide, by decide, by decide⟩

theorem C3_component_marking_witness :
    (markSectionPartitions bridgeGraph).2.1.PSMsToProteins.markOf 0 =
      (touchesOf (markSectionPartitions bridgeGraph).2.2 GSide.pep 0).toFinset ∧
    (markSectionPartitions bridgeGraph).2.1.PSMsToProteins.sectionOf 0 =
      ((touchesOf (markSectionPartitions bridgeGraph).2.2 GSide.pep 0).getLast?).getD
        (-1) :=
  C3_component_marking bridgeGraph GSide.pep 0 (by decide)

/-! ### C2: partition independence -/

theorem traceConnected_frame : ∀ (fuel : ℕ) (g : BasicBigraph) (side : GSide)
    (i : ℕ) (s : ℤ),
    (traceConnected fuel g side i s).1.PSMsToProteins.names =
        g.PSMsToProteins.names ∧
      (traceConnected fuel g side i s).1.PSMsToProteins.associations =
        g.PSMsToProteins.associations ∧
      (traceConnected fuel g side i s).1.proteinsToPSMs.names =
        g.proteinsToPSMs.names ∧
      (traceConnected fuel g side i s).1.proteinsToPSMs.associations =
        g.proteinsToPSMs.associations
  | 0, g, side, i, s => ⟨rfl, rfl, rfl, rfl⟩
  | fuel + 1, g, side, i, s => by
    simp only [traceConnected]
    by_cases hguard : (g.layer side).sectionOf i = s
    · rw [if_pos hguard]
      exact ⟨rfl, rfl, rfl, rfl⟩
    · rw [if_neg hguard]
      have hg1 : (addSectionMark (setSection g side i s) side i s).PSMsToProteins.names =
            g.PSMsToProteins.names ∧
          (addSectionMark (setSection g side i s) side i s).PSMsToProteins.associations =
            g.PSMsToProteins.associations ∧
          (addSectionMark (setSection g side i s) side i s).proteinsToPSMs.names =
            g.proteinsToPSMs.names ∧
          (addSectionMark (setSection g side i s) side i s).proteinsToPSMs.associations =
            g.proteinsToPSMs.associations := by
        cases side <;> exact ⟨rfl, rfl, rfl, rfl⟩
      by_cases hw : side = GSide.pep ∧ (g.layer side).weight i ≤ g.PeptideThreshold
      · rw [if_pos hw]
        exact hg1
      · rw [if_neg hw]
        have hfold : ∀ (lst : List ℕ) (acc : BasicBigraph × List TouchEvent),
            (acc.1.PSMsToProteins.names = g.PSMsToProteins.names ∧
              acc.1.PSMsToProteins.associations = g.PSMsToProteins.associations ∧
              acc.1.proteinsToPSMs.names = g.proteinsToPSMs.names ∧
              acc.1.proteinsToPSMs.associations = g.proteinsToPSMs.associations) →
            ((lst.foldl (fun acc j =>
                ((traceConnected fuel acc.1 side.flip j s).1,
                  acc.2 ++ (traceConnected fuel acc.1 side.flip j s).2)) acc).1.PSMsToProteins.names =
                g.PSMsToProteins.names ∧
              (lst.foldl (fun acc j =>
                ((traceConnected fuel acc.1 side.flip j s).1,
                  acc.2 ++ (traceConnected fuel acc.1 side.flip j s).2)) acc).1.PSMsToProteins.associations =
                g.PSMsToProteins.associations ∧
              (lst.foldl (fun acc j =>
                ((traceConnected fuel acc.1 side.flip j s).1,
                  acc.2 ++ (traceConnected fuel acc.1 side.flip j s).2)) acc).1.proteinsToPSMs.names =
                g.proteinsToPSMs.names ∧
              (lst.foldl (fun acc j =>
                ((traceConnected fuel acc.1 side.flip j s).1,
                  acc.2 ++ (traceConnected fuel acc.1 side.flip j s).2)) acc).1.proteinsToPSMs.associations =
                g.proteinsToPSMs.associations) := by
          intro lst
          induction lst with
          | nil => exact fun acc h => h
          | cons j t ih =>
            intro acc h
            simp only [List.foldl_cons]
            apply ih
            obtain ⟨e1, e2, e3, e4⟩ := traceConnected_frame fuel acc.1 side.flip j s
            exact ⟨e1.trans h.1, e2.trans h.2.1, e3.trans h.2.2.1, e4.trans h.2.2.2⟩
        exact hfold _ _ hg1

theorem markSectionPartitions_frame (g : BasicBigraph) :
    (markSectionPartitions g).2.1.PSMsToProteins.names = g.PSMsToProteins.names ∧
    (markSectionPartitions g).2.1.PSMsToProteins.associations =
      g.PSMsToProteins.associations ∧
    (markSectionPartitions g).2.1.proteinsToPSMs.names = g.proteinsToPSMs.names ∧
    (markSectionPartitions g).2.1.proteinsToPSMs.associations =
      g.proteinsToPSMs.associations := by
  have hfold : ∀ (fuel : ℕ) (lst : List ℕ)
      (acc : ℕ × BasicBigraph × List TouchEvent),
      (acc.2.1.PSMsToProteins.names = g.PSMsToProteins.names ∧
        acc.2.1.PSMsToProteins.associations = g.PSMsToProteins.associations ∧
        acc.2.1.proteinsToPSMs.names = g.proteinsToPSMs.names ∧
        acc.2.1.proteinsToPSMs.associations = g.proteinsToPSMs.associations) →
      ((lst.foldl (fun (acc : ℕ × BasicBigraph × List TouchEvent) k =>
          if acc.2.1.proteinsToPSMs.sectionOf k = -1 then
            (acc.1 + 1, (traceConnected fuel acc.2.1 GSide.prot k (acc.1 : ℤ)).1,
              acc.2.2 ++ (traceConnected fuel acc.2.1 GSide.prot k (acc.1 : ℤ)).2)
          else acc) acc).2.1.PSMsToProteins.names = g.PSMsToProteins.names ∧
        (lst.foldl (fun (acc : ℕ × BasicBigraph × List TouchEvent) k =>
          if acc.2.1.proteinsToPSMs.sectionOf k = -1 then
            (acc.1 + 1, (traceConnected fuel acc.2.1 GSide.prot k (acc.1 : ℤ)).1,
              acc.2.2 ++ (traceConnected fuel acc.2.1 GSide.prot k (acc.1 : ℤ)).2)
          else acc) acc).2.1.PSMsToProteins.associations =
          g.PSMsToProteins.associations ∧
        (lst.foldl (fun (acc : ℕ × BasicBigraph × List TouchEvent) k =>
          if acc.2.1.proteinsToPSMs.sectionOf k = -1 then
            (acc.1 + 1, (traceConnected fuel acc.2.1 GSide.prot k (acc.1 : ℤ)).1,
              acc.2.2 ++ (traceConnected fuel acc.2.1 GSide.prot k (acc.1 : ℤ)).2)
          else acc) acc).2.1.proteinsToPSMs.names = g.proteinsToPSMs.names ∧
        (lst.foldl (fun (acc : ℕ × BasicBigraph × List TouchEvent) k =>
          if acc.2.1.proteinsToPSMs.sectionOf k = -1 then
            (acc.1 + 1, (traceConnected fuel acc.2.1 GSide.prot k (acc.1 : ℤ)).1,
              acc.2.2 ++ (traceConnected fuel acc.2.1 GSide.prot k (acc.1 : ℤ)).2)
          else acc) acc).2.1.proteinsToPSMs.associations =
          g.proteinsToPSMs.associations) := by
    intro fuel lst
    induction lst with
    | nil => exact fun acc h => h
    | cons k t ih =>
      intro acc h
      simp only [List.foldl_cons]
      by_cases hg : acc.2.1.proteinsToPSMs.sectionOf k = -1
      · rw [if_pos hg]
        apply ih
        obtain ⟨e1, e2, e3, e4⟩ :=
          traceConnected_frame fuel acc.2.1 GSide.prot k (acc.1 : ℤ)
        exact ⟨e1.trans h.1, e2.trans h.2.1, e3.trans h.2.2.1, e4.trans h.2.2.2⟩
      · rw [if_neg hg]
        exact ih acc h
  exact hfold (g.PSMsToProteins.size + g.proteinsToPSMs.size + 1) _ _
    ⟨rfl, rfl, rfl, rfl⟩

theorem getD_map_range {α : Type} (n : ℕ) (f : ℕ → α) (e : α) (i : ℕ) :
    ((List.range n).map f).getD i e = if i < n then f i else e := by
  by_cases h : i < n
  · rw [if_pos h, List.getD_eq_getElem _ _ (by simpa using h)]
    simp
  · rw [if_neg h]
    exact List.getD_eq_default _ _ (by simpa using h)

/-- C2 (amended): the components returned by `partitionSections` are
index-disjoint (the subsets are grouped by distinct final section values),
so whenever distinct nodes of the graph carry distinct names — as `read`
guarantees, and as `clonePSM` deliberately violates for the peptides it
clones — no peptide or protein name occurs in more than one returned
component. -/
theorem C2_partition_name_disjoint (g : BasicBigraph)
    (hpn : g.PSMsToProteins.names.Nodup)
    (hrn : g.proteinsToPSMs.names.Nodup)
    (hpl : g.PSMsToProteins.names.length = g.PSMsToProteins.size)
    (hrl : g.proteinsToPSMs.names.length = g.proteinsToPSMs.size) :
    NoSharedNames (partitionSections g) := by
  obtain ⟨f1, f2, f3, f4⟩ := markSectionPartitions_frame g
  have hszp : (markSectionPartitions g).2.1.PSMsToProteins.size =
      g.PSMsToProteins.size := congrArg List.length f2
  have hszr : (markSectionPartitions g).2.1.proteinsToPSMs.size =
      g.proteinsToPSMs.size := congrArg List.length f4
  intro i j hij nm
  constructor
  · rintro ⟨hi, hj⟩
    rw [show partitionSections g = (List.range (markSectionPartitions g).1).map
        (fun (k : ℕ) => buildSubgraph (markSectionPartitions g).2.1
          ((Finset.range (markSectionPartitions g).2.1.proteinsToPSMs.size).filter
            (fun x => (markSectionPartitions g).2.1.proteinsToPSMs.sectionOf x = (k : ℤ)))
          ((Finset.range (markSectionPartitions g).2.1.PSMsToProteins.size).filter
            (fun x => (markSectionPartitions g).2.1.PSMsToProteins.sectionOf x = (k : ℤ)))) from rfl,
      getD_map_range] at hi hj
    by_cases hilt : i < (markSectionPartitions g).1
    · by_cases hjlt : j < (markSectionPartitions g).1
      · rw [if_pos hilt] at hi
        rw [if_pos hjlt] at hj
        obtain ⟨a, haL, haEq⟩ := List.mem_map.mp hi
        obtain ⟨b, hbL, hbEq⟩ := List.mem_map.mp hj
        have haF := Finset.mem_filter.mp (mem_ascList.mp haL)
        have hbF := Finset.mem_filter.mp (mem_ascList.mp hbL)
        have haSz : a < g.PSMsToProteins.size := by
          have := Finset.mem_range.mp haF.1
          omega
        have hbSz : b < g.PSMsToProteins.size := by
          have := Finset.mem_range.mp hbF.1
          omega
        have hane : a ≠ b := by
          intro heq
          rw [heq] at haF
          have : (i : ℤ) = (j : ℤ) := by
            rw [← haF.2, ← hbF.2]
          exact hij (by exact_mod_cast this)
        have hga : (markSectionPartitions g).2.1.PSMsToProteins.names.getD a "" =
            g.PSMsToProteins.names.getD a "" := by rw [f1]
        have hgb : (markSectionPartitions g).2.1.PSMsToProteins.names.getD b "" =
            g.PSMsToProteins.names.getD b "" := by rw [f1]
        have haN : a < g.PSMsToProteins.names.length := by rw [hpl]; exact haSz
        have hbN : b < g.PSMsToProteins.names.length := by rw [hpl]; exact hbSz
        have : g.PSMsToProteins.names.get ⟨a, haN⟩ = g.PSMsToProteins.names.get ⟨b, hbN⟩ := by
          have h1 := haEq.trans hbEq.symm
          rw [hga, hgb] at h1
          rw [List.getD_eq_getElem _ _ haN, List.getD_eq_getElem _ _ hbN] at h1
          exact h1
        exact hane ((hpn.getElem_inj_iff).mp this)
      · rw [if_neg hjlt] at hj
        simp [emptyBigraph] at hj
    · rw [if_neg hilt] at hi
      simp [emptyBigraph] at hi
  · rintro ⟨hi, hj⟩
    rw [show partitionSections g = (List.range (markSectionPartitions g).1).map
        (fun (k : ℕ) => buildSubgraph (markSectionPartitions g).2.1
          ((Finset.range (markSectionPartitions g).2.1.proteinsToPSMs.size).filter
            (fun x => (markSectionPartitions g).2.1.proteinsToPSMs.sectionOf x = (k : ℤ)))
          ((Finset.range (markSectionPartitions g).2.1.PSMsToProteins.size).filter
            (fun x => (markSectionPartitions g).2.1.PSMsToProteins.sectionOf x = (k : ℤ)))) from rfl,
      getD_map_range] at hi hj
    by_cases hilt : i < (markSectionPartitions g).1
    · by_cases hjlt : j < (markSectionPartitions g).1
      · rw [if_pos hilt] at hi
        rw [if_pos hjlt] at hj
        obtain ⟨a, haL, haEq⟩ := List.mem_map.mp hi
        obtain ⟨b, hbL, hbEq⟩ := List.mem_map.mp hj
        have haF := Finset.mem_filter.mp (mem_ascList.mp haL)
        have hbF := Finset.mem_filter.mp (mem_ascList.mp hbL)
        have haSz : a < g.proteinsToPSMs.size := by
          have := Finset.mem_range.mp haF.1
          omega
        have hbSz : b < g.proteinsToPSMs.size := by
          have := Finset.mem_range.mp hbF.1
          omega
        have hane : a ≠ b := by
          intro heq
          rw [heq] at haF
          have : (i : ℤ) = (j : ℤ) := by
            rw [← haF.2, ← hbF.2]
          exact hij (by exact_mod_cast this)
        have hga : (markSectionPartitions g).2.1.proteinsToPSMs.names.getD a "" =
            g.proteinsToPSMs.names.getD a "" := by rw [f3]
        have hgb : (markSectionPartitions g).2.1.proteinsToPSMs.names.getD b "" =
            g.proteinsToPSMs.names.getD b "" := by rw [f3]
        have haN : a < g.proteinsToPSMs.names.length := by rw [hrl]; exact haSz
        have hbN : b < g.proteinsToPSMs.names.length := by rw [hrl]; exact hbSz
        have : g.proteinsToPSMs.names.get ⟨a, haN⟩ = g.proteinsToPSMs.names.get ⟨b, hbN⟩ := by
          have h1 := haEq.trans hbEq.symm
          rw [hga, hgb] at h1
          rw [List.getD_eq_getElem _ _ haN, List.getD_eq_getElem _ _ hbN] at h1
          exact h1
        exact hane ((hrn.getElem_inj_iff).mp this)
      · rw [if_neg hjlt] at hj
        simp [emptyBigraph] at hj
    · rw [if_neg hilt] at hi
      simp [emptyBigraph] at hi

/-- C2 counterexample: on `bridgeGraph` (peptide X at the threshold bridging
proteins P and Q), `prune` clones X, giving two components that BOTH carry
the peptide name "X" — the claim fails for graphs on which prune ran. -/
theorem C2_counterexample :
    ¬ NoSharedNames (partitionSections (prune bridgeGraph)) := by
  intro h
  exact (h 0 1 (by decide) "X").1 ⟨by decide, by decide⟩

theorem C2_partition_name_disjoint_witness :
    NoSharedNames (partitionSections twoCompGraph) :=
  C2_partition_name_disjoint twoCompGraph (by decide) (by decide) (by decide)
    (by decide)

end DartFido
